import Mathlib

/-!
Verification of the bet-grammar parser and aggregation engine of the
Telegram betting bot (files `lib/parser.js` and the webhook handler).

The JavaScript source is shallowly embedded: strings are manipulated as
`List Char`, JavaScript numbers that can be `NaN` are `Option Int`
(`none` = NaN), and JavaScript objects used as dictionaries are
insertion-ordered association lists whose enumeration follows the
ECMAScript own-property-key order (canonical array-index keys first in
ascending numeric order, then the remaining string keys in insertion
order).  All definitions are computable.
-/

set_option autoImplicit false

namespace NextBet

/-- The whitespace characters recognized by the embedding (the ASCII
subset of the JavaScript `\s` class / `String.prototype.trim`; the
Unicode-only space characters play no role in any claim). -/
def isJsSpace (c : Char) : Bool :=
  c = ' ' ∨ c = '\t' ∨ c = '\n' ∨ c = '\r' ∨ c = '\x0b' ∨ c = '\x0c'

/-- `String.prototype.trim`, on the character-list view. -/
def trimChars (l : List Char) : List Char :=
  ((l.dropWhile isJsSpace).reverse.dropWhile isJsSpace).reverse

/-- `text.split(/\n|,/)`: split at every separator character, keeping
empty segments (JavaScript `String.prototype.split` semantics). -/
def splitChars (p : Char → Bool) : List Char → List (List Char)
  | [] => [[]]
  | c :: rest =>
    if p c then [] :: splitChars p rest
    else
      match splitChars p rest with
      | [] => [[c]]
      | seg :: segs => (c :: seg) :: segs

/-- Worker for `collapseWs`; the flag records whether the previous
character belonged to a whitespace run whose single space was already
emitted. -/
def collapseWsAux : Bool → List Char → List Char
  | _, [] => []
  | inRun, c :: rest =>
    if isJsSpace c then
      if inRun then collapseWsAux true rest
      else ' ' :: collapseWsAux true rest
    else c :: collapseWsAux false rest

/-- `part.replace(/\s+/g, " ")`: collapse every maximal run of
whitespace characters to a single space. -/
def collapseWs (l : List Char) : List Char := collapseWsAux false l

/-- Decimal value of a digit string (`parseInt(s, 10)` on an all-digit
string; stored-record amounts are integers, so the float rounding of
`parseInt` beyond 2^53 is outside the modelled value space). -/
def digitsToNat (l : List Char) : Nat :=
  l.foldl (fun acc c => acc * 10 + (c.toNat - 48)) 0

/-- `Array.prototype.join(sep)`. -/
def joinSep (sep : String) : List String → String
  | [] => ""
  | [x] => x
  | x :: y :: rest => x ++ sep ++ joinSep sep (y :: rest)

/-- First-appearance deduplication: keeps the first occurrence of every
element, in order of first appearance. -/
def dedupFirst : List String → List String
  | [] => []
  | x :: xs => x :: (dedupFirst xs).filter (fun y => y ≠ x)

/-! ## Parser (`lib/parser.js`) -/

/-- A parsed bet: `{ number, amount }`. -/
structure Bet where
  number : String
  amount : Nat
deriving DecidableEq, Repr

/-- `pad2`: left-pad a single-character numeral with one `"0"`. -/
def pad2 (s : String) : String :=
  if s.length = 1 then "0" ++ s else s

/-- `reverse2`: zero-pad to two characters (`padStart(2, "0")`), then
reverse the character sequence. -/
def reverse2 (s : String) : String :=
  let t : List Char :=
    if s.length < 2 then List.replicate (2 - s.length) '0' ++ s.data else s.data
  String.mk t.reverse

/-- `(\d+)$`: the remainder must be a non-empty digit sequence, which
becomes the captured amount. -/
def digitsToEnd (l : List Char) : Option (List Char) :=
  if l ≠ [] ∧ l.all Char.isDigit then some l else none

/-- The part of the bet regexes after the leading number capture:
`\s*D\s*(\d+)$` where `D` is one delimiter character out of `delims`,
optional iff `optionalDelim` (rules 1, 2 and 3 of the grammar).  The
regex engine's backtracking over the optional delimiter is the
`withDelim`-then-fallback structure; the `\s*` and `(\d+)$` pieces are
deterministic because no delimiter or digit is a whitespace character. -/
def matchTail (delims : List Char) (optionalDelim : Bool) (r : List Char) :
    Option (List Char) :=
  let r1 := r.dropWhile isJsSpace
  let withDelim : Option (List Char) :=
    match r1 with
    | [] => none
    | c :: rest => if c ∈ delims then digitsToEnd (rest.dropWhile isJsSpace) else none
  match withDelim with
  | some a => some a
  | none => if optionalDelim then digitsToEnd r1 else none

/-- The tail `\s+(\d+)$` of the whitespace-fallback rule 4. -/
def matchSpaceTail (r : List Char) : Option (List Char) :=
  match r with
  | [] => none
  | c :: rest => if isJsSpace c then digitsToEnd (rest.dropWhile isJsSpace) else none

/-- `^(\d{1,2})` followed by a tail matcher: the greedy two-digit
capture is tried first and the engine backtracks to the one-digit
capture when the tail fails.  Returns the captured number string and
the captured amount digits. -/
def matchNumThen (tl : List Char → Option (List Char)) :
    List Char → Option (String × List Char)
  | [] => none
  | [c1] =>
    if c1.isDigit then (tl []).map (fun a => (String.mk [c1], a)) else none
  | c1 :: c2 :: rest2 =>
    if c1.isDigit then
      if c2.isDigit then
        match tl rest2 with
        | some a => some (String.mk [c1, c2], a)
        | none => (tl (c2 :: rest2)).map (fun a => (String.mk [c1], a))
      else (tl (c2 :: rest2)).map (fun a => (String.mk [c1], a))
    else none

/-- Delimiters of grammar rule 1: `/^(\d{1,2})\s*[-_dD]?\s*(\d+)$/`. -/
def rule1Delims : List Char := ['-', '_', 'd', 'D']

/-- Delimiters of the reverse-bet rule 2: `/^(\d{1,2})\s*[rR]\s*(\d+)$/`. -/
def ruleRDelims : List Char := ['r', 'R']

/-- Delimiter of rule 3: `/^(\d{1,2})\s*=\s*(\d+)$/`. -/
def ruleEqDelims : List Char := ['=']

/-- Parse one trimmed segment: normalize whitespace, then try the four
grammar rules in order; the first rule that matches wins.  The
reverse-bet rule contributes two entries, original number first. -/
def parseSegmentChars (part : List Char) : List Bet :=
  let s := collapseWs part
  match matchNumThen (matchTail rule1Delims true) s with
  | some (num, a) => [⟨pad2 num, digitsToNat a⟩]
  | none =>
    match matchNumThen (matchTail ruleRDelims false) s with
    | some (num, a) =>
      [⟨pad2 num, digitsToNat a⟩, ⟨reverse2 (pad2 num), digitsToNat a⟩]
    | none =>
      match matchNumThen (matchTail ruleEqDelims false) s with
      | some (num, a) => [⟨pad2 num, digitsToNat a⟩]
      | none =>
        match matchNumThen matchSpaceTail s with
        | some (num, a) => [⟨pad2 num, digitsToNat a⟩]
        | none => []

/-- The separator class `/\n|,/` of the segmenting split. -/
def isSegSep (c : Char) : Bool := c = '\n' ∨ c = ','

/-- Segmentation-and-parse pipeline shared by `parseMessageToBets`
(split on newline/comma, trim, drop empty segments, parse each segment,
concatenate in segment order). -/
def parseCore (l : List Char) : List Bet :=
  ((((splitChars isSegSep l).map trimChars).filter (fun s => s ≠ [])).map
    parseSegmentChars).flatten

/-- `parseMessageToBets(text)`: the guard `if (!text) return []` plus
the segmentation pipeline. -/
def parseMessageToBets (text : String) : List Bet :=
  if text = "" then [] else parseCore text.data

/-! ## JavaScript values and objects

Stored-record `amount` values reach the aggregator untyped
("number-like", section 6 of the design).  The embedding models the
value space as integers, strings, `null` and `undefined`; a JavaScript
number that may be `NaN` is an `Option Int` with `none` for `NaN`. -/

/-- Lexicographic strict order on character lists, comparing scalar
values pointwise (this is the JavaScript `<` string comparison; for
strings of basic-plane characters — all keys occurring here — the
UTF-16 code-unit order and the scalar-value order coincide). -/
def lexLt : List Char → List Char → Bool
  | _, [] => false
  | [], _ :: _ => true
  | a :: as, b :: bs =>
    if a < b then true
    else if b < a then false
    else lexLt as bs

/-- Strict string order used by the default `Array.prototype.sort`
comparator. -/
def strLt (a b : String) : Prop := lexLt a.data b.data = true

/-- The corresponding total preorder (`¬ (b < a)`). -/
def strLe (a b : String) : Prop := lexLt b.data a.data = false

instance : DecidableRel strLt := fun _ _ =>
  inferInstanceAs (Decidable (_ = true))

instance : DecidableRel strLe := fun _ _ =>
  inferInstanceAs (Decidable (_ = false))

/-- An untyped JavaScript value as stored in a bet record's `amount`. -/
inductive JVal where
  | jnum (n : Int)
  | jstr (s : String)
  | jnull
  | jundef
deriving DecidableEq, Repr

/-- JavaScript truthiness of a `JVal` (`0`, `""`, `null`, `undefined`
are falsy). -/
def jsTruthy : JVal → Bool
  | .jnum n => n ≠ 0
  | .jstr s => s ≠ ""
  | .jnull => false
  | .jundef => false

/-- `a || b` on amount values: `b` if `a` is falsy, else `a`. -/
def jsOr (a b : JVal) : JVal := if jsTruthy a then a else b

/-- `Number(string)` restricted to the decimal fragment relevant here:
a whitespace-only string coerces to `0`, a (trimmed) non-empty digit
string to its decimal value, anything else to `NaN`.  (Signs, hex and
scientific forms never occur in stored amounts.) -/
def strToNumber (s : String) : Option Int :=
  let t := trimChars s.data
  if t = [] then some 0
  else if t.all Char.isDigit then some (digitsToNat t : Int)
  else none

/-- `Number(v)`: `none` is `NaN`. -/
def toNumber : JVal → Option Int
  | .jnum n => some n
  | .jstr s => strToNumber s
  | .jnull => some 0
  | .jundef => none

/-- A JavaScript object used as a string-keyed dictionary: the entry
list is kept in key-insertion order (assigning an existing key keeps
its position, assigning a fresh key appends).  Prototype-related exotic
keys are outside the modelled value space. -/
structure JsObj (α : Type) where
  entries : List (String × α)
deriving DecidableEq

/-- Property read `o[k]`: `none` plays the role of `undefined`. -/
def JsObj.get {α : Type} (o : JsObj α) (k : String) : Option α :=
  (o.entries.find? (fun p => p.1 = k)).map (fun p => p.2)

/-- Entry-list update for property assignment. -/
def setEntries {α : Type} : List (String × α) → String → α → List (String × α)
  | [], k, v => [(k, v)]
  | p :: rest, k, v =>
    if p.1 = k then (k, v) :: rest else p :: setEntries rest k v

/-- Property assignment `o[k] = v`. -/
def JsObj.set {α : Type} (o : JsObj α) (k : String) (v : α) : JsObj α :=
  ⟨setEntries o.entries k v⟩

/-- Is `s` a canonical array-index property key (ECMAScript: the
canonical decimal form of an integer `0 ≤ i < 2^32 - 1`)? -/
def isArrayIndexKey (s : String) : Bool :=
  s.data ≠ [] ∧ s.data.all Char.isDigit ∧
    (s.data.head? = some '0' → s.data = ['0']) ∧
    digitsToNat s.data < 4294967295

/-- Enumeration order of `Object.keys` / `Object.entries`
(ECMAScript `OrdinaryOwnPropertyKeys`): canonical array-index keys
first, in ascending numeric order, then the remaining string keys in
insertion order. -/
def JsObj.ownEntries {α : Type} (o : JsObj α) : List (String × α) :=
  (o.entries.filter (fun p => isArrayIndexKey p.1)).insertionSort
      (fun p q => digitsToNat p.1.data ≤ digitsToNat q.1.data)
    ++ o.entries.filter (fun p => !(isArrayIndexKey p.1))

/-- `Object.keys(o)`. -/
def JsObj.ownKeys {α : Type} (o : JsObj α) : List String :=
  o.ownEntries.map (fun p => p.1)

/-! ## Aggregator (`replyAggregates`) -/

/-- A stored bet record as read back for aggregation (`created_at` is
consumed by the separate time filter, not by `replyAggregates`). -/
structure AggRecord where
  number : String
  sender : String
  amount : JVal
deriving DecidableEq, Repr

/-- Total-mode accumulation:
`acc[r.number] = (acc[r.number] || 0) + (Number(r.amount) || 0)`.
Both `|| 0` guards turn `undefined`, `NaN` and `0` into `0`, so the
stored values are never `NaN`. -/
def totalAgg (rows : List AggRecord) : JsObj Int :=
  rows.foldl
    (fun acc r =>
      acc.set r.number (((acc.get r.number).getD 0) + ((toNumber r.amount).getD 0)))
    ⟨[]⟩

/-- JavaScript number-to-string for a possibly-`NaN` value. -/
def fmtNum : Option Int → String
  | some v => toString v
  | none => "NaN"

/-- Total-mode lines: `Object.keys(agg).sort().map(n => n + " - " + agg[n])`.
The default `sort()` comparator is lexicographic on the string keys. -/
def totalLines (rows : List AggRecord) : List String :=
  let agg := totalAgg rows
  (agg.ownKeys.insertionSort strLe).map
    (fun n =>
      n ++ " - " ++ (match agg.get n with
        | some v => toString v
        | none => "undefined"))

/-- Per-sender accumulation:
`map[r.number] = map[r.number] || {};`
`map[r.number][r.sender] = (map[r.number][r.sender] || 0) + Number(r.amount || 0)`.
The read-back `|| 0` turns `undefined`, `NaN` and `0` into `0`, but the
added term `Number(r.amount || 0)` is `NaN` whenever the amount is
truthy and fails to coerce, and `x + NaN` is `NaN`. -/
def perUserStep (map : JsObj (JsObj (Option Int))) (r : AggRecord) :
    JsObj (JsObj (Option Int)) :=
  let inner0 : JsObj (Option Int) :=
    match map.get r.number with
    | some o => o
    | none => ⟨[]⟩
  let prev : Int :=
    match inner0.get r.sender with
    | some (some v) => v
    | some none => 0
    | none => 0
  let contrib : Option Int := toNumber (jsOr r.amount (JVal.jnum 0))
  (map.set r.number inner0).set r.number
    (inner0.set r.sender (contrib.map (fun c => prev + c)))

/-- The per-sender aggregation: the loop `for (const r of rows) ...`
with body `perUserStep`, starting from the empty map. -/
def perUserAgg (rows : List AggRecord) : JsObj (JsObj (Option Int)) :=
  rows.foldl perUserStep ⟨[]⟩

/-- Per-sender lines:
`Object.keys(map).sort()` for the numbers, and for each number
`Object.entries(map[n]).map(([sender, sum]) => sender + ": " + sum).join("; ")`. -/
def perUserLines (rows : List AggRecord) : List String :=
  let map := perUserAgg rows
  (map.ownKeys.insertionSort strLe).map
    (fun n =>
      n ++ " -> " ++ (match map.get n with
        | some inner =>
          joinSep "; " (inner.ownEntries.map (fun p => p.1 ++ ": " ++ fmtNum p.2))
        | none => "undefined"))

/-- The outcome of `replyAggregates`: the distinguished "No data found
for summary." message, or a total-mode / per-user report carrying its
formatted lines (the emoji headline is transport text). -/
inductive SummaryResult where
  | noData
  | totalReport (lines : List String)
  | perUserReport (lines : List String)
deriving DecidableEq, Repr

/-- `replyAggregates(rows, chatId, perUser)` as a pure function of the
record list and the mode (the spec's `summarize`). -/
def summarize (rows : List AggRecord) (perUser : Bool) : SummaryResult :=
  if rows.isEmpty then .noData
  else if perUser then .perUserReport (perUserLines rows)
  else .totalReport (totalLines rows)

/-- The per-sender running sum stored for `(n, s)`:
`map[n][s]` (outer `none` = number absent, inner `none` = `NaN`). -/
def perUserSum (rows : List AggRecord) (n s : String) : Option (Option Int) :=
  ((perUserAgg rows).get n).bind (fun inner => inner.get s)

/-- NaN-propagating sum of a list of JavaScript numbers (the "sum over
senders" of the algebraic claim). -/
def jsSumVals (l : List (Option Int)) : Option Int :=
  l.foldl
    (fun acc v =>
      match acc, v with
      | some a, some b => some (a + b)
      | _, _ => none)
    (some 0)

/-! ## Local-hour filter (`before12` branch of `handleSummarize`) -/

/-- The fixed Yangon offset, exactly as written in the source:
`6.5 * 60 * 60 * 1000`.  Every partial product of this left-associated
IEEE-double expression is an integer of magnitude below 2^53, so the
float evaluation is exact and equals its evaluation over ℚ. -/
def yangonOffsetMillis : ℚ := 6.5 * 60 * 60 * 1000

/-- The integer value of the offset expression; `yangonOffsetMillis`
is proved equal to it below (`yangonOffset_exact`), which is the
"no drift from the 30-minute component" fact. -/
def yangonOffsetInt : Int := 23400000

/-- The ECMAScript `TimeClip` bound: time values of magnitude beyond
`8.64e15` ms denote an invalid date. -/
def maxTimeMillis : Nat := 8640000000000000

/-- The record filter of the `before12` branch:
`const millis = dt.getTime() + 6.5*60*60*1000;
 return new Date(millis).getUTCHours() < 12;`
for a record whose `created_at` parsed to the UTC timestamp `t` in ms.
The float sum is exact over the valid range (both summands are
integers and `|sum| < 2^53`), so `millis = t + 23400000` exactly.
`new Date(millis)` clips: beyond `|millis| ≤ 8.64e15` the date is
invalid, `getUTCHours()` is `NaN`, and `NaN < 12` is `false`.  In
range, `getUTCHours` is `HourFromTime`: `floor(millis / 3600000)`
modulo 24 with a non-negative result (`Int.fdiv` and `%` = `Int.emod`). -/
def isBeforeNoonLocal (t : Int) : Bool :=
  let millis : Int := t + yangonOffsetInt
  if millis.natAbs ≤ maxTimeMillis then
    decide ((millis.fdiv 3600000) % 24 < 12)
  else false

/-! ## Specification-side definitions

These re-state the aggregation results by direct filtering and
summation, following the spec's wording ("group records by `number`,
summing `amount` per group"); the claim theorems relate them to the
code-side folds above. -/

/-- The `number` fields of a record list, in order. -/
def numbersOf (rows : List AggRecord) : List String :=
  rows.map (fun r => r.number)

/-- Spec-side total-mode sum for a number: the sum over the records of
that number of their amount coerced with `Number(amount) || 0`. -/
def specTotalSum (rows : List AggRecord) (n : String) : Int :=
  ((rows.filter (fun r => r.number = n)).map
    (fun r => (toNumber r.amount).getD 0)).sum

/-- The senders of the records for a number, in record order. -/
def sendersFor (rows : List AggRecord) (n : String) : List String :=
  (rows.filter (fun r => r.number = n)).map (fun r => r.sender)

/-- Spec-side per-sender running value for `(n, s)`: the left fold of
`acc ↦ Number(amount || 0) + (acc || 0)` over the records of that
number and sender (`none` = `NaN`). -/
def specPerVal (rows : List AggRecord) (n s : String) : Option Int :=
  (rows.filter (fun r => r.number = n ∧ r.sender = s)).foldl
    (fun acc r =>
      (toNumber (jsOr r.amount (JVal.jnum 0))).map (fun c => acc.getD 0 + c))
    (some 0)

/-- Spec-side inner entry list for a number: senders in
first-appearance order, each with its running value. -/
def specInner (rows : List AggRecord) (n : String) : List (String × Option Int) :=
  (dedupFirst (sendersFor rows n)).map (fun s => (s, specPerVal rows n s))

/-- The distinct numbers of a record list, sorted ascending by the
string order. -/
def sortedNumbers (rows : List AggRecord) : List String :=
  (dedupFirst (numbersOf rows)).insertionSort strLe

/-! ## Order lemmas for the string comparator -/

theorem lexLt_irrefl : ∀ l : List Char, lexLt l l = false
  | [] => rfl
  | c :: cs => by simp [lexLt, lexLt_irrefl cs]

theorem lexLt_asymm : ∀ {a b : List Char}, lexLt a b = true → lexLt b a = false
  | _, [], h => by cases h₂ : lexLt [] [] <;> simp_all [lexLt]
  | [], _ :: _, _ => rfl
  | a :: as, b :: bs, h => by
    simp only [lexLt] at h ⊢
    rcases lt_trichotomy a b with hab | hab | hab
    · simp [hab, asymm hab, ne_of_gt hab]
    · subst hab
      simp only [lt_irrefl, if_false] at h ⊢
      exact lexLt_asymm h
    · simp [hab, asymm hab] at h

theorem lexLt_connex :
    ∀ {a b : List Char}, lexLt a b = false → lexLt b a = false → a = b
  | [], [], _, _ => rfl
  | [], _ :: _, h1, _ => by simp [lexLt] at h1
  | _ :: _, [], _, h2 => by simp [lexLt] at h2
  | a :: as, b :: bs, h1, h2 => by
    simp only [lexLt] at h1 h2
    rcases lt_trichotomy a b with hab | hab | hab
    · simp [hab] at h1
    · subst hab
      simp only [lt_irrefl, if_false] at h1 h2
      rw [lexLt_connex h1 h2]
    · simp [hab] at h2

theorem lexLt_trans :
    ∀ {a b c : List Char}, lexLt a b = true → lexLt b c = true → lexLt a c = true
  | _, _, [], _, h2 => by cases h₃ : lexLt [] [] <;> simp_all [lexLt]
  | [], _, _ :: _, _, _ => rfl
  | _ :: _, [], _, h1, _ => by simp [lexLt] at h1
  | a :: as, b :: bs, c :: cs, h1, h2 => by
    simp only [lexLt] at h1 h2 ⊢
    rcases lt_trichotomy a b with hab | hab | hab
    · rcases lt_trichotomy b c with hbc | hbc | hbc
      · simp [lt_trans hab hbc]
      · subst hbc; simp [hab]
      · simp [hbc, asymm hbc] at h2
    · subst hab
      simp only [lt_irrefl, if_false] at h1
      rcases lt_trichotomy a c with hac | hac | hac
      · simp [hac]
      · subst hac
        simp only [lt_irrefl, if_false] at h2 ⊢
        exact lexLt_trans h1 h2
      · simp [hac, asymm hac] at h2
    · simp [hab, asymm hab] at h1

theorem string_eq_of_data_eq {a b : String} (h : a.data = b.data) : a = b := by
  cases a
  cases b
  exact congrArg String.mk (by simpa using h)

theorem strLe_of_strLt {a b : String} (h : strLt a b) : strLe a b :=
  lexLt_asymm h

theorem strLt_of_strLe_of_ne {a b : String} (h : strLe a b) (hne : a ≠ b) :
    strLt a b := by
  cases h₂ : lexLt a.data b.data with
  | true => exact h₂
  | false => exact absurd (string_eq_of_data_eq (lexLt_connex h₂ h)) hne

instance : IsTotal String strLe := by
  constructor
  intro a b
  cases h : lexLt b.data a.data with
  | false => exact Or.inl h
  | true => exact Or.inr (lexLt_asymm h)

instance : IsTrans String strLe := by
  constructor
  intro a b c hab hbc
  have hab' : lexLt b.data a.data = false := hab
  have hbc' : lexLt c.data b.data = false := hbc
  show lexLt c.data a.data = false
  cases hca : lexLt c.data a.data with
  | false => rfl
  | true =>
    cases hbc₂ : lexLt b.data c.data with
    | true => simp [lexLt_trans hbc₂ hca] at hab'
    | false =>
      have hbcEq : b.data = c.data := lexLt_connex hbc₂ hbc'
      rw [hbcEq] at hab'
      simp [hca] at hab'

instance : IsAntisymm String strLe := by
  constructor
  intro a b hab hba
  exact string_eq_of_data_eq (lexLt_connex hba hab)

/-! ## Dictionary and first-appearance lemmas -/

/-- Tabulated entry list: keys `ks`, value `f k` at key `k`. -/
def tabulate {α : Type} (ks : List String) (f : String → α) : List (String × α) :=
  ks.map (fun k => (k, f k))

@[simp] theorem tabulate_nil {α : Type} (f : String → α) : tabulate [] f = [] := rfl

@[simp] theorem tabulate_cons {α : Type} (k : String) (ks : List String)
    (f : String → α) : tabulate (k :: ks) f = (k, f k) :: tabulate ks f := rfl

theorem tabulate_keys {α : Type} (ks : List String) (f : String → α) :
    (tabulate ks f).map (fun p => p.1) = ks := by
  induction ks with
  | nil => rfl
  | cons k ks ih => simp [ih]

theorem find?_tabulate {α : Type} (ks : List String) (f : String → α) (k : String) :
    ((tabulate ks f).find? (fun p => p.1 = k))
      = if k ∈ ks then some (k, f k) else none := by
  induction ks with
  | nil => simp
  | cons k0 rest ih =>
    by_cases h : k0 = k
    · subst h
      simp [List.find?_cons]
    · rw [tabulate_cons, List.find?_cons]
      simp [h, Ne.symm h, ih, List.mem_cons]

theorem get_tabulate {α : Type} (ks : List String) (f : String → α) (k : String) :
    (JsObj.mk (tabulate ks f)).get k = if k ∈ ks then some (f k) else none := by
  rw [JsObj.get, find?_tabulate]
  split <;> simp

theorem setEntries_of_not_mem {α : Type} {l : List (String × α)} {k : String}
    (v : α) (h : k ∉ l.map (fun p => p.1)) : setEntries l k v = l ++ [(k, v)] := by
  induction l with
  | nil => rfl
  | cons p rest ih =>
    simp only [List.map_cons, List.mem_cons] at h
    push_neg at h
    rw [setEntries, if_neg (Ne.symm h.1), ih h.2]
    simp

theorem setEntries_tabulate_mem {α : Type} {ks : List String} {k : String}
    (f : String → α) (v : α) (hk : k ∈ ks) (hnd : ks.Nodup) :
    setEntries (tabulate ks f) k v
      = tabulate ks (fun n => if n = k then v else f n) := by
  induction ks with
  | nil => cases hk
  | cons k0 rest ih =>
    rcases List.nodup_cons.mp hnd with ⟨hk0, hndr⟩
    by_cases h : k0 = k
    · subst h
      rw [tabulate_cons, setEntries, if_pos rfl, tabulate_cons, if_pos rfl]
      have htail : tabulate rest f
          = tabulate rest (fun n => if n = k0 then v else f n) := by
        apply List.map_congr_left
        intro n hn
        have hne : n ≠ k0 := fun hnk => hk0 (hnk ▸ hn)
        simp [hne]
      rw [htail]
    · have hk' : k ∈ rest := by
        rcases List.mem_cons.mp hk with h' | h'
        · exact absurd h'.symm h
        · exact h'
      simp only [tabulate_cons, setEntries, if_neg h]
      exact congrArg _ (ih hk' hndr)

theorem set_set {α : Type} (o : JsObj α) (k : String) (v w : α) :
    (o.set k v).set k w = o.set k w := by
  rcases o with ⟨l⟩
  simp only [JsObj.set, JsObj.mk.injEq]
  induction l with
  | nil => simp [setEntries]
  | cons p rest ih =>
    by_cases h : p.1 = k
    · simp [setEntries, h]
    · simp [setEntries, h, ih]

theorem mem_dedupFirst {x : String} : ∀ {l : List String}, x ∈ dedupFirst l ↔ x ∈ l
  | [] => Iff.rfl
  | y :: ys => by
    simp only [dedupFirst, List.mem_cons, List.mem_filter, mem_dedupFirst]
    by_cases h : x = y <;> simp [h]

theorem nodup_dedupFirst : ∀ l : List String, (dedupFirst l).Nodup
  | [] => List.nodup_nil
  | y :: ys => by
    rw [dedupFirst, List.nodup_cons]
    constructor
    · intro hmem
      exact absurd (List.of_mem_filter hmem) (by simp)
    · exact (nodup_dedupFirst ys).filter _

theorem dedupFirst_append_singleton (l : List String) (x : String) :
    dedupFirst (l ++ [x]) = dedupFirst l ++ (if x ∈ l then [] else [x]) := by
  induction l with
  | nil => simp [dedupFirst]
  | cons y ys ih =>
    simp only [List.cons_append, dedupFirst]
    rw [show dedupFirst (ys.append [x])
        = dedupFirst ys ++ (if x ∈ ys then [] else [x]) from ih]
    simp only [List.filter_append, List.mem_cons]
    by_cases hxy : x = y
    · subst hxy
      by_cases hx : x ∈ ys <;> simp [hx]
    · by_cases hx : x ∈ ys <;> simp [hx, hxy, Ne.symm hxy]

/-! ## Total-mode structure -/

theorem numbersOf_append (rows : List AggRecord) (r : AggRecord) :
    numbersOf (rows ++ [r]) = numbersOf rows ++ [r.number] := by
  simp [numbersOf]

theorem totalAgg_append (rows : List AggRecord) (r : AggRecord) :
    totalAgg (rows ++ [r])
      = (totalAgg rows).set r.number
          (((totalAgg rows).get r.number).getD 0 + (toNumber r.amount).getD 0) := by
  simp [totalAgg, List.foldl_append]

theorem specTotalSum_append (rows : List AggRecord) (r : AggRecord) (n : String) :
    specTotalSum (rows ++ [r]) n
      = specTotalSum rows n
        + (if r.number = n then (toNumber r.amount).getD 0 else 0) := by
  simp only [specTotalSum, List.filter_append]
  by_cases h : r.number = n
  · simp [h]
  · simp [h]

theorem specTotalSum_eq_zero {rows : List AggRecord} {n : String}
    (h : n ∉ numbersOf rows) : specTotalSum rows n = 0 := by
  simp only [numbersOf] at h
  have hnil : rows.filter (fun r => r.number = n) = [] := by
    apply List.filter_eq_nil_iff.mpr
    intro r hr
    simp only [decide_eq_true_eq]
    intro heq
    exact h (List.mem_map.mpr ⟨r, hr, heq⟩)
  simp [specTotalSum, hnil]

theorem totalAgg_entries (rows : List AggRecord) :
    (totalAgg rows).entries
      = tabulate (dedupFirst (numbersOf rows)) (specTotalSum rows) := by
  induction rows using List.reverseRecOn with
  | nil => rfl
  | append_singleton rows r ih =>
    have hobj : totalAgg rows
        = JsObj.mk (tabulate (dedupFirst (numbersOf rows)) (specTotalSum rows)) := by
      rw [← ih]
    rw [totalAgg_append, numbersOf_append, dedupFirst_append_singleton, hobj]
    by_cases hmem : r.number ∈ numbersOf rows
    · have hmemD : r.number ∈ dedupFirst (numbersOf rows) := mem_dedupFirst.mpr hmem
      rw [if_pos hmem, List.append_nil, get_tabulate, if_pos hmemD]
      show setEntries _ _ _ = _
      rw [setEntries_tabulate_mem _ _ hmemD (nodup_dedupFirst _)]
      apply List.map_congr_left
      intro n hn
      rw [specTotalSum_append]
      by_cases hn' : n = r.number
      · subst hn'
        simp
      · simp only [if_neg hn', if_neg (fun h : r.number = n => hn' h.symm), add_zero]
    · have hD : r.number ∉ dedupFirst (numbersOf rows) :=
        fun h => hmem (mem_dedupFirst.mp h)
      rw [if_neg hmem, get_tabulate, if_neg hD]
      show setEntries _ _ _ = _
      rw [setEntries_of_not_mem _ (by rw [tabulate_keys]; exact hD)]
      rw [show tabulate (dedupFirst (numbersOf rows) ++ [r.number])
            (specTotalSum (rows ++ [r]))
          = tabulate (dedupFirst (numbersOf rows)) (specTotalSum (rows ++ [r]))
            ++ [(r.number, specTotalSum (rows ++ [r]) r.number)]
        from List.map_append _ _ _]
      congr 1
      · apply List.map_congr_left
        intro n hn
        have hn' : n ≠ r.number := fun h => hD (h ▸ hn)
        rw [specTotalSum_append, if_neg (fun h => hn' h.symm), add_zero]
      · rw [specTotalSum_append, if_pos rfl, specTotalSum_eq_zero hmem]
        simp

theorem totalAgg_get (rows : List AggRecord) (n : String) :
    (totalAgg rows).get n
      = if n ∈ numbersOf rows then some (specTotalSum rows n) else none := by
  have hobj : totalAgg rows
      = JsObj.mk (tabulate (dedupFirst (numbersOf rows)) (specTotalSum rows)) := by
    rw [← totalAgg_entries]
  rw [hobj, get_tabulate]
  by_cases h : n ∈ numbersOf rows
  · rw [if_pos (mem_dedupFirst.mpr h), if_pos h]
  · rw [if_neg (fun hh => h (mem_dedupFirst.mp hh)), if_neg h]

/-! ## Per-sender structure -/

theorem specInner_eq_tabulate (rows : List AggRecord) (n : String) :
    specInner rows n
      = tabulate (dedupFirst (sendersFor rows n)) (fun s => specPerVal rows n s) :=
  rfl

theorem sendersFor_append (rows : List AggRecord) (r : AggRecord) (n : String) :
    sendersFor (rows ++ [r]) n
      = sendersFor rows n ++ (if r.number = n then [r.sender] else []) := by
  simp only [sendersFor, List.filter_append]
  by_cases h : r.number = n <;> simp [h]

theorem sendersFor_eq_nil {rows : List AggRecord} {n : String}
    (h : n ∉ numbersOf rows) : sendersFor rows n = [] := by
  simp only [numbersOf] at h
  have hnil : rows.filter (fun r => r.number = n) = [] := by
    apply List.filter_eq_nil_iff.mpr
    intro r hr
    simp only [decide_eq_true_eq]
    intro heq
    exact h (List.mem_map.mpr ⟨r, hr, heq⟩)
  simp [sendersFor, hnil]

theorem specPerVal_append (rows : List AggRecord) (r : AggRecord) (n s : String) :
    specPerVal (rows ++ [r]) n s
      = if r.number = n ∧ r.sender = s then
          (toNumber (jsOr r.amount (JVal.jnum 0))).map
            (fun c => (specPerVal rows n s).getD 0 + c)
        else specPerVal rows n s := by
  simp only [specPerVal, List.filter_append]
  by_cases h : r.number = n ∧ r.sender = s
  · simp [h, List.foldl_append]
  · simp [h]

theorem specPerVal_not_mem {rows : List AggRecord} {n s : String}
    (h : s ∉ sendersFor rows n) : specPerVal rows n s = some 0 := by
  have hnil :
      rows.filter (fun r => decide (r.number = n) && decide (r.sender = s)) = [] := by
    apply List.filter_eq_nil_iff.mpr
    intro r hr
    simp only [Bool.and_eq_true, decide_eq_true_eq, not_and]
    intro h1 h2
    refine h ?_
    simp only [sendersFor]
    exact List.mem_map.mpr ⟨r, List.mem_filter.mpr ⟨hr, by simp [h1]⟩, h2⟩
  simp [specPerVal, hnil]

theorem specPerVal_append_other {rows : List AggRecord} {r : AggRecord} {n s : String}
    (h : ¬(r.number = n ∧ r.sender = s)) :
    specPerVal (rows ++ [r]) n s = specPerVal rows n s := by
  rw [specPerVal_append, if_neg h]

theorem specPerVal_append_self (rows : List AggRecord) (r : AggRecord) :
    specPerVal (rows ++ [r]) r.number r.sender
      = (toNumber (jsOr r.amount (JVal.jnum 0))).map
          (fun c => (specPerVal rows r.number r.sender).getD 0 + c) := by
  rw [specPerVal_append, if_pos ⟨rfl, rfl⟩]

theorem specInner_of_not_mem {rows : List AggRecord} {n : String}
    (h : n ∉ numbersOf rows) : specInner rows n = [] := by
  rw [specInner_eq_tabulate, sendersFor_eq_nil h]
  rfl

theorem specInner_append_other (rows : List AggRecord) (r : AggRecord) {n : String}
    (h : r.number ≠ n) : specInner (rows ++ [r]) n = specInner rows n := by
  rw [specInner_eq_tabulate, specInner_eq_tabulate, sendersFor_append,
    if_neg h, List.append_nil]
  apply List.map_congr_left
  intro s hs
  have hcond : ¬(r.number = n ∧ r.sender = s) := fun hc => h hc.1
  simp only [specPerVal_append_other hcond]

theorem perUser_prev_eq (rows : List AggRecord) (n s : String) :
    (match (JsObj.mk (specInner rows n)).get s with
      | some (some v) => v
      | some none => 0
      | none => 0)
      = (specPerVal rows n s).getD 0 := by
  rw [specInner_eq_tabulate, get_tabulate]
  by_cases h : s ∈ dedupFirst (sendersFor rows n)
  · rw [if_pos h]
    cases specPerVal rows n s <;> rfl
  · rw [if_neg h]
    rw [specPerVal_not_mem (fun hm => h (mem_dedupFirst.mpr hm))]
    rfl

theorem specInner_step (rows : List AggRecord) (r : AggRecord) :
    setEntries (specInner rows r.number) r.sender
        (specPerVal (rows ++ [r]) r.number r.sender)
      = specInner (rows ++ [r]) r.number := by
  rw [specInner_eq_tabulate, specInner_eq_tabulate, sendersFor_append, if_pos rfl,
    dedupFirst_append_singleton]
  by_cases hmem : r.sender ∈ sendersFor rows r.number
  · have hmemD : r.sender ∈ dedupFirst (sendersFor rows r.number) :=
      mem_dedupFirst.mpr hmem
    rw [if_pos hmem, List.append_nil,
      setEntries_tabulate_mem _ _ hmemD (nodup_dedupFirst _)]
    apply List.map_congr_left
    intro s hs
    by_cases hs' : s = r.sender
    · subst hs'
      simp
    · have hcond : ¬(r.number = r.number ∧ r.sender = s) := fun hc => hs' (hc.2.symm)
      simp only [if_neg hs', specPerVal_append_other hcond]
  · have hD : r.sender ∉ dedupFirst (sendersFor rows r.number) :=
      fun h => hmem (mem_dedupFirst.mp h)
    rw [if_neg hmem, setEntries_of_not_mem _ (by rw [tabulate_keys]; exact hD)]
    rw [show tabulate (dedupFirst (sendersFor rows r.number) ++ [r.sender])
          (fun s => specPerVal (rows ++ [r]) r.number s)
        = tabulate (dedupFirst (sendersFor rows r.number))
            (fun s => specPerVal (rows ++ [r]) r.number s)
          ++ [(r.sender, specPerVal (rows ++ [r]) r.number r.sender)]
      from List.map_append _ _ _]
    congr 1
    apply List.map_congr_left
    intro s hs
    have hs' : s ≠ r.sender := fun h => hD (h ▸ hs)
    have hcond : ¬(r.number = r.number ∧ r.sender = s) := fun hc => hs' (hc.2.symm)
    simp only [specPerVal_append_other hcond]

theorem perUserAgg_append (rows : List AggRecord) (r : AggRecord) :
    perUserAgg (rows ++ [r]) = perUserStep (perUserAgg rows) r := by
  simp [perUserAgg, List.foldl_append]

theorem perUserAgg_entries (rows : List AggRecord) :
    (perUserAgg rows).entries
      = tabulate (dedupFirst (numbersOf rows))
          (fun n => JsObj.mk (specInner rows n)) := by
  induction rows using List.reverseRecOn with
  | nil => rfl
  | append_singleton rows r ih =>
    have hobj : perUserAgg rows
        = JsObj.mk (tabulate (dedupFirst (numbersOf rows))
            (fun n => JsObj.mk (specInner rows n))) := by
      rw [← ih]
    rw [perUserAgg_append, hobj, perUserStep]
    have hinner0 :
        (match (JsObj.mk (tabulate (dedupFirst (numbersOf rows))
            (fun n => JsObj.mk (specInner rows n)))).get r.number with
          | some o => o
          | none => (⟨[]⟩ : JsObj (Option Int)))
          = JsObj.mk (specInner rows r.number) := by
      rw [get_tabulate]
      by_cases hmem : r.number ∈ dedupFirst (numbersOf rows)
      · rw [if_pos hmem]
      · rw [if_neg hmem,
          specInner_of_not_mem (fun h => hmem (mem_dedupFirst.mpr h))]
    rw [hinner0, set_set, perUser_prev_eq]
    have hnew : (toNumber (jsOr r.amount (JVal.jnum 0))).map
          (fun c => (specPerVal rows r.number r.sender).getD 0 + c)
        = specPerVal (rows ++ [r]) r.number r.sender :=
      (specPerVal_append_self rows r).symm
    rw [hnew]
    have hset : (JsObj.mk (specInner rows r.number)).set r.sender
          (specPerVal (rows ++ [r]) r.number r.sender)
        = JsObj.mk (specInner (rows ++ [r]) r.number) := by
      show JsObj.mk (setEntries _ _ _) = _
      rw [specInner_step]
    rw [hset, numbersOf_append, dedupFirst_append_singleton]
    by_cases hmem : r.number ∈ numbersOf rows
    · have hmemD : r.number ∈ dedupFirst (numbersOf rows) := mem_dedupFirst.mpr hmem
      rw [if_pos hmem, List.append_nil]
      show setEntries _ _ _ = _
      rw [setEntries_tabulate_mem _ _ hmemD (nodup_dedupFirst _)]
      apply List.map_congr_left
      intro n hn
      by_cases hn' : n = r.number
      · subst hn'
        simp
      · simp only [if_neg hn',
          specInner_append_other rows r (fun h : r.number = n => hn' h.symm)]
    · have hD : r.number ∉ dedupFirst (numbersOf rows) :=
        fun h => hmem (mem_dedupFirst.mp h)
      rw [if_neg hmem]
      show setEntries _ _ _ = _
      rw [setEntries_of_not_mem _ (by rw [tabulate_keys]; exact hD)]
      rw [show tabulate (dedupFirst (numbersOf rows) ++ [r.number])
            (fun n => JsObj.mk (specInner (rows ++ [r]) n))
          = tabulate (dedupFirst (numbersOf rows))
              (fun n => JsObj.mk (specInner (rows ++ [r]) n))
            ++ [(r.number, JsObj.mk (specInner (rows ++ [r]) r.number))]
        from List.map_append _ _ _]
      congr 1
      apply List.map_congr_left
      intro n hn
      have hn' : n ≠ r.number := fun h => hD (h ▸ hn)
      simp only [specInner_append_other rows r (fun h : r.number = n => hn' h.symm)]

theorem perUserAgg_get (rows : List AggRecord) (n : String) :
    (perUserAgg rows).get n
      = if n ∈ numbersOf rows then some (JsObj.mk (specInner rows n)) else none := by
  have hobj : perUserAgg rows
      = JsObj.mk (tabulate (dedupFirst (numbersOf rows))
          (fun n => JsObj.mk (specInner rows n))) := by
    rw [← perUserAgg_entries]
  rw [hobj, get_tabulate]
  by_cases h : n ∈ numbersOf rows
  · rw [if_pos (mem_dedupFirst.mpr h), if_pos h]
  · rw [if_neg (fun hh => h (mem_dedupFirst.mp hh)), if_neg h]

/-! ## Enumeration order and formatted lines -/

theorem filter_pos_neg_perm {α : Type} (p : α → Bool) (l : List α) :
    (l.filter p ++ l.filter (fun a => !(p a))).Perm l := by
  induction l with
  | nil => simp
  | cons a l ih =>
    cases h : p a with
    | true =>
      simp only [List.filter_cons, h, Bool.not_true, List.cons_append]
      exact (List.Perm.cons a ih)
    | false =>
      simp only [List.filter_cons, h, Bool.not_false]
      exact List.perm_middle.trans (List.Perm.cons a ih)

theorem ownEntries_perm {α : Type} (o : JsObj α) : o.ownEntries.Perm o.entries := by
  unfold JsObj.ownEntries
  exact ((List.perm_insertionSort _ _).append_right _).trans
    (filter_pos_neg_perm _ _)

theorem ownKeys_perm {α : Type} (o : JsObj α) :
    o.ownKeys.Perm (o.entries.map (fun p => p.1)) :=
  (ownEntries_perm o).map _

theorem ownEntries_of_no_index {α : Type} (o : JsObj α)
    (h : ∀ p ∈ o.entries, isArrayIndexKey p.1 = false) :
    o.ownEntries = o.entries := by
  unfold JsObj.ownEntries
  rw [List.filter_eq_nil_iff.mpr (by intro p hp; simp [h p hp])]
  rw [List.filter_eq_self.mpr (by intro p hp; simp [h p hp])]
  rfl

theorem insertionSort_ownKeys {α : Type} (o : JsObj α) :
    o.ownKeys.insertionSort strLe
      = (o.entries.map (fun p => p.1)).insertionSort strLe := by
  refine List.eq_of_perm_of_sorted ?_ (List.sorted_insertionSort strLe _)
    (List.sorted_insertionSort strLe _)
  exact ((List.perm_insertionSort strLe _).trans (ownKeys_perm o)).trans
    (List.perm_insertionSort strLe _).symm

theorem sortedNumbers_nodup (rows : List AggRecord) : (sortedNumbers rows).Nodup :=
  ((List.perm_insertionSort strLe _).nodup_iff).mpr (nodup_dedupFirst _)

theorem mem_sortedNumbers {rows : List AggRecord} {n : String} :
    n ∈ sortedNumbers rows ↔ n ∈ numbersOf rows := by
  rw [sortedNumbers, (List.perm_insertionSort strLe _).mem_iff, mem_dedupFirst]

theorem sortedNumbers_strict (rows : List AggRecord) :
    List.Pairwise strLt (sortedNumbers rows) := by
  have hsorted : (sortedNumbers rows).Sorted strLe :=
    List.sorted_insertionSort strLe _
  have hnd : (sortedNumbers rows).Nodup := sortedNumbers_nodup rows
  exact (hsorted.and hnd).imp (fun h => strLt_of_strLe_of_ne h.1 h.2)

theorem totalLines_eq (rows : List AggRecord) :
    totalLines rows
      = (sortedNumbers rows).map
          (fun n => n ++ " - " ++ toString (specTotalSum rows n)) := by
  show ((totalAgg rows).ownKeys.insertionSort strLe).map _ = _
  have hks : (totalAgg rows).entries.map (fun p => p.1)
      = dedupFirst (numbersOf rows) := by
    rw [totalAgg_entries, tabulate_keys]
  rw [insertionSort_ownKeys, hks]
  apply List.map_congr_left
  intro n hn
  have hnmem : n ∈ numbersOf rows :=
    mem_dedupFirst.mp ((List.perm_insertionSort strLe _).mem_iff.mp hn)
  rw [totalAgg_get, if_pos hnmem]

theorem mem_sendersFor {rows : List AggRecord} {n s : String}
    (h : s ∈ sendersFor rows n) : ∃ r ∈ rows, r.sender = s := by
  simp only [sendersFor, List.mem_map] at h
  rcases h with ⟨r, hr, hs⟩
  exact ⟨r, List.mem_of_mem_filter hr, hs⟩

theorem perUserLines_eq (rows : List AggRecord)
    (hs : ∀ r ∈ rows, isArrayIndexKey r.sender = false) :
    perUserLines rows
      = (sortedNumbers rows).map
          (fun n => n ++ " -> " ++ joinSep "; "
            ((specInner rows n).map (fun p => p.1 ++ ": " ++ fmtNum p.2))) := by
  show ((perUserAgg rows).ownKeys.insertionSort strLe).map _ = _
  have hks : (perUserAgg rows).entries.map (fun p => p.1)
      = dedupFirst (numbersOf rows) := by
    rw [perUserAgg_entries, tabulate_keys]
  rw [insertionSort_ownKeys, hks]
  apply List.map_congr_left
  intro n hn
  have hnmem : n ∈ numbersOf rows :=
    mem_dedupFirst.mp ((List.perm_insertionSort strLe _).mem_iff.mp hn)
  rw [perUserAgg_get, if_pos hnmem]
  have hinner : (JsObj.mk (specInner rows n)).ownEntries = specInner rows n := by
    apply ownEntries_of_no_index
    intro p hp
    simp only [JsObj.mk] at hp
    rw [specInner_eq_tabulate] at hp
    have hpkey : p.1 ∈ dedupFirst (sendersFor rows n) := by
      rw [← tabulate_keys (dedupFirst (sendersFor rows n))
        (fun s => specPerVal rows n s)]
      exact List.mem_map_of_mem (fun q => q.1) hp
    rcases mem_sendersFor (mem_dedupFirst.mp hpkey) with ⟨r, hr, hsr⟩
    rw [← hsr]
    exact hs r hr
  simp only [hinner]

/-! ## Coercion and summation lemmas -/

theorem toNumber_jsOr_eq {v : JVal} (h : (toNumber v).isSome = true) :
    toNumber (jsOr v (JVal.jnum 0)) = toNumber v := by
  cases v with
  | jnum n =>
    by_cases h0 : n = 0
    · subst h0
      rfl
    · simp [jsOr, jsTruthy, h0]
  | jstr s =>
    by_cases h0 : s = ""
    · subst h0
      rfl
    · simp [jsOr, jsTruthy, h0]
  | jnull => rfl
  | jundef => simp [toNumber] at h

theorem tabulate_values {α : Type} (ks : List String) (f : String → α) :
    (tabulate ks f).map (fun p => p.2) = ks.map f := by
  induction ks with
  | nil => rfl
  | cons k ks ih => simp [ih]

theorem jsSumVals_aux (l : List (Option Int)) (h : ∀ v ∈ l, v.isSome = true) :
    ∀ a : Int,
      l.foldl
        (fun acc v =>
          match acc, v with
          | some x, some y => some (x + y)
          | _, _ => none)
        (some a)
      = some (a + (l.map (fun v => v.getD 0)).sum) := by
  induction l with
  | nil => intro a; simp
  | cons v l ih =>
    intro a
    rcases Option.isSome_iff_exists.mp (h v (List.mem_cons_self v l)) with ⟨y, hy⟩
    subst hy
    rw [List.foldl_cons]
    show List.foldl _ (some (a + y)) l = _
    rw [ih (fun w hw => h w (List.mem_cons_of_mem _ hw)) (a + y)]
    simp [add_assoc]

theorem jsSumVals_eq {l : List (Option Int)} (h : ∀ v ∈ l, v.isSome = true) :
    jsSumVals l = some ((l.map (fun v => v.getD 0)).sum) := by
  rw [jsSumVals, jsSumVals_aux l h 0, zero_add]

theorem specPerVal_foldl_aux (l : List AggRecord)
    (h : ∀ r ∈ l, (toNumber r.amount).isSome = true) :
    ∀ a : Int,
      l.foldl
        (fun acc r =>
          (toNumber (jsOr r.amount (JVal.jnum 0))).map (fun c => acc.getD 0 + c))
        (some a)
      = some (a + (l.map (fun r => (toNumber r.amount).getD 0)).sum) := by
  induction l with
  | nil => intro a; simp
  | cons r l ih =>
    intro a
    rcases Option.isSome_iff_exists.mp (h r (List.mem_cons_self r l)) with ⟨y, hy⟩
    rw [List.foldl_cons, toNumber_jsOr_eq (by rw [hy]; rfl), hy]
    show List.foldl _ (some (a + y)) l = _
    rw [ih (fun w hw => h w (List.mem_cons_of_mem r hw)) (a + y)]
    simp [hy, add_assoc]

theorem specPerVal_eq_sum {rows : List AggRecord} {n s : String}
    (h : ∀ r ∈ rows, (toNumber r.amount).isSome = true) :
    specPerVal rows n s
      = some (((rows.filter (fun r => r.number = n ∧ r.sender = s)).map
          (fun r => (toNumber r.amount).getD 0)).sum) := by
  rw [specPerVal,
    specPerVal_foldl_aux _
      (fun r hr => h r (List.mem_of_mem_filter hr)) 0,
    zero_add]

theorem sum_grouped {α : Type} (f : α → String) (c : α → Int) :
    ∀ L : List α,
      ((dedupFirst (L.map f)).map
        (fun s => ((L.filter (fun r => f r = s)).map c).sum)).sum
      = (L.map c).sum := by
  intro L
  induction L with
  | nil => rfl
  | cons r L ih =>
    simp only [List.map_cons, dedupFirst, List.sum_cons]
    have hhead : ((r :: L).filter (fun x => f x = f r)).map c
        = c r :: (L.filter (fun x => f x = f r)).map c := by
      rw [List.filter_cons]
      simp
    rw [hhead, List.sum_cons]
    have htail :
        ((dedupFirst (L.map f)).filter (fun y => y ≠ f r)).map
          (fun s => (((r :: L).filter (fun x => f x = s)).map c).sum)
        = ((dedupFirst (L.map f)).filter (fun y => y ≠ f r)).map
          (fun s => ((L.filter (fun x => f x = s)).map c).sum) := by
      apply List.map_congr_left
      intro s hs
      have hsne : f r ≠ s := by
        intro hh
        have := (List.mem_filter.mp hs).2
        simp [hh] at this
      rw [List.filter_cons, if_neg (by simpa using hsne)]
    rw [htail]
    have hmain :
        ((L.filter (fun x => f x = f r)).map c).sum
          + (((dedupFirst (L.map f)).filter (fun y => y ≠ f r)).map
              (fun s => ((L.filter (fun x => f x = s)).map c).sum)).sum
        = ((dedupFirst (L.map f)).map
            (fun s => ((L.filter (fun x => f x = s)).map c).sum)).sum := by
      by_cases hmem : f r ∈ dedupFirst (L.map f)
      · have hperm : List.Perm (dedupFirst (L.map f))
            (f r :: (dedupFirst (L.map f)).filter (fun y => y ≠ f r)) := by
          have herase : (dedupFirst (L.map f)).filter (fun y => y ≠ f r)
              = (dedupFirst (L.map f)).erase (f r) := by
            rw [List.Nodup.erase_eq_filter (nodup_dedupFirst (L.map f)) (f r)]
            apply List.filter_congr
            intro y hy
            by_cases hyy : y = f r
            · simp [hyy]
            · simp [hyy]
          rw [herase]
          exact List.perm_cons_erase hmem
        rw [List.Perm.sum_eq (hperm.map _)]
        rw [List.map_cons, List.sum_cons]
      · have hnil : L.filter (fun x => f x = f r) = [] := by
          apply List.filter_eq_nil_iff.mpr
          intro x hx
          simp only [decide_eq_true_eq]
          intro hfx
          exact hmem (mem_dedupFirst.mpr (hfx ▸ List.mem_map_of_mem f hx))
        have hfilt : (dedupFirst (L.map f)).filter (fun y => y ≠ f r)
            = dedupFirst (L.map f) := by
          apply List.filter_eq_self.mpr
          intro s hs
          simp only [decide_eq_true_eq]
          intro hh
          exact hmem (hh ▸ hs)
        rw [hnil, hfilt]
        simp
    rw [add_assoc, hmain, ih]

/-! ## Character-class and normalization lemmas -/

theorem not_space_of_digit {c : Char} (h : c.isDigit = true) :
    isJsSpace c = false := by
  cases hs : isJsSpace c with
  | false => rfl
  | true =>
    exfalso
    simp only [isJsSpace, decide_eq_true_eq] at hs
    rcases hs with h1 | h1 | h1 | h1 | h1 | h1 <;>
      (subst h1; exact absurd h (by decide))

theorem not_digit_of_rule1Delim {c : Char} (h : c ∈ rule1Delims) :
    c.isDigit = false := by
  fin_cases h <;> decide

theorem ruleR_not_digit {c : Char} (h : c ∈ ruleRDelims) : c.isDigit = false := by
  fin_cases h <;> decide

theorem ruleR_not_space {c : Char} (h : c ∈ ruleRDelims) : isJsSpace c = false := by
  fin_cases h <;> decide

theorem ruleR_not_rule1 {c : Char} (h : c ∈ ruleRDelims) : c ∉ rule1Delims := by
  fin_cases h <;> decide

theorem not_sep_of_digit {c : Char} (h : c.isDigit = true) : isSegSep c = false := by
  cases hs : isSegSep c with
  | false => rfl
  | true =>
    exfalso
    simp only [isSegSep, decide_eq_true_eq] at hs
    rcases hs with h1 | h1 <;> (subst h1; exact absurd h (by decide))

theorem dropWhile_eq_self_of_head {p : Char → Bool} {l : List Char}
    (h : ∀ c, l.head? = some c → p c = false) : l.dropWhile p = l := by
  cases l with
  | nil => rfl
  | cons c rest => rw [List.dropWhile_cons, if_neg (by rw [h c rfl]; simp)]

theorem dropWhile_space_replicate (p : Char → Bool) (hp : p ' ' = true)
    (k : Nat) (l : List Char) :
    (List.replicate k ' ' ++ l).dropWhile p = l.dropWhile p := by
  induction k with
  | zero => rfl
  | succ k ih =>
    rw [List.replicate_succ, List.cons_append, List.dropWhile_cons, if_pos (by simp [hp])]
    exact ih

theorem aux_no_space {l : List Char} (h : ∀ c ∈ l, isJsSpace c = false) :
    ∀ b, collapseWsAux b l = l := by
  induction l with
  | nil => intro b; rfl
  | cons c rest ih =>
    intro b
    rw [collapseWsAux, if_neg (by rw [h c (List.mem_cons_self c rest)]; simp)]
    rw [ih (fun d hd => h d (List.mem_cons_of_mem c hd)) false]

theorem aux_false_append_nonspace (num : List Char)
    (h : ∀ c ∈ num, isJsSpace c = false) (rest : List Char) :
    collapseWsAux false (num ++ rest) = num ++ collapseWsAux false rest := by
  induction num with
  | nil => rfl
  | cons c num ih =>
    rw [List.cons_append, collapseWsAux,
      if_neg (by rw [h c (List.mem_cons_self c num)]; simp)]
    rw [ih (fun d hd => h d (List.mem_cons_of_mem c hd)), List.cons_append]

theorem aux_true_replicate (j : Nat) (l : List Char) :
    collapseWsAux true (List.replicate j ' ' ++ l) = collapseWsAux true l := by
  induction j with
  | zero => rfl
  | succ j ih =>
    rw [List.replicate_succ, List.cons_append, collapseWsAux, if_pos (by decide),
      if_pos rfl]
    exact ih

theorem aux_true_nonspace_head {c : Char} (hc : isJsSpace c = false)
    (l : List Char) :
    collapseWsAux true (c :: l) = c :: collapseWsAux false l := by
  rw [collapseWsAux, if_neg (by rw [hc]; simp)]

theorem aux_false_replicate_cons (k : Nat) {c : Char} (hc : isJsSpace c = false)
    (l : List Char) :
    collapseWsAux false (List.replicate k ' ' ++ c :: l)
      = (if k = 0 then [] else [' ']) ++ c :: collapseWsAux false l := by
  cases k with
  | zero =>
    rw [List.replicate_zero, List.nil_append, if_pos rfl, List.nil_append,
      collapseWsAux, if_neg (by rw [hc]; simp)]
  | succ k =>
    rw [List.replicate_succ, List.cons_append, collapseWsAux, if_pos (by decide),
      if_neg (by simp), aux_true_replicate, aux_true_nonspace_head hc]
    rfl

theorem trimChars_eq_self {l : List Char}
    (h1 : ∀ c, l.head? = some c → isJsSpace c = false)
    (h2 : ∀ c, l.getLast? = some c → isJsSpace c = false) :
    trimChars l = l := by
  rw [trimChars, dropWhile_eq_self_of_head h1, dropWhile_eq_self_of_head
    (by
      intro c hc
      exact h2 c (by rwa [List.head?_reverse] at hc)),
    List.reverse_reverse]

theorem splitChars_ne_nil (p : Char → Bool) : ∀ l : List Char, splitChars p l ≠ []
  | [] => by simp [splitChars]
  | c :: rest => by
    by_cases h : p c = true
    · simp [splitChars, h]
    · rcases hs : splitChars p rest with _ | ⟨seg, segs⟩
      · exact absurd hs (splitChars_ne_nil p rest)
      · simp [splitChars, h, hs]

theorem splitChars_append_sep (p : Char → Bool) {c : Char} (hc : p c = true) :
    ∀ x y : List Char,
      splitChars p (x ++ c :: y) = splitChars p x ++ splitChars p y := by
  intro x y
  induction x with
  | nil =>
    simp [splitChars, hc]
  | cons d x ih =>
    by_cases hd : p d = true
    · simp [splitChars, hd, ih]
    · rcases hs : splitChars p x with _ | ⟨seg, segs⟩
      · exact absurd hs (splitChars_ne_nil p x)
      · simp [splitChars, hd, ih, hs]

theorem splitChars_eq_single {p : Char → Bool} {l : List Char}
    (h : ∀ c ∈ l, p c = false) : splitChars p l = [l] := by
  induction l with
  | nil => rfl
  | cons c rest ih =>
    rw [splitChars, if_neg (by rw [h c (List.mem_cons_self c rest)]; simp)]
    rw [ih (fun d hd => h d (List.mem_cons_of_mem c hd))]

/-! ## Matcher lemmas -/

theorem digitsToEnd_some {a : List Char} (hne : a ≠ [])
    (had : a.all Char.isDigit = true) : digitsToEnd a = some a := by
  rw [digitsToEnd, if_pos ⟨hne, had⟩]

theorem digitsToEnd_none_of_mem {a : List Char} {c : Char} (hc : c ∈ a)
    (hcd : c.isDigit = false) : digitsToEnd a = none := by
  rw [digitsToEnd, if_neg]
  rintro ⟨-, hall⟩
  rw [List.all_eq_true] at hall
  exact absurd (hall c hc) (by simp [hcd])

theorem all_digits_no_space {a : List Char} (had : a.all Char.isDigit = true) :
    ∀ c ∈ a, isJsSpace c = false := by
  intro c hc
  rw [List.all_eq_true] at had
  exact not_space_of_digit (by simpa using had c hc)

/-- The rule-1 tail fails on any remainder that starts (after spaces)
with a reverse-delimiter: the delimiter is not in `[-_dD]`, so the
optional-delimiter branch has to read it as a digit and fails. -/
theorem matchTail_rule1_at_ruleR {r : Char} (hr : r ∈ ruleRDelims)
    (w : List Char) (hw : ∀ c ∈ w, isJsSpace c = false → False)
    (rest : List Char) :
    matchTail rule1Delims true (w ++ r :: rest) = none := by
  have hdrop : (w ++ r :: rest).dropWhile isJsSpace = r :: rest := by
    have hall : ∀ c ∈ w, isJsSpace c = true := by
      intro c hc
      cases h : isJsSpace c with
      | true => rfl
      | false => exact absurd h (fun hh => hw c hc hh)
    induction w with
    | nil =>
      exact dropWhile_eq_self_of_head
        (by intro c hc; cases hc; exact ruleR_not_space hr)
    | cons d w ih =>
      rw [List.cons_append, List.dropWhile_cons,
        if_pos (hall d (List.mem_cons_self d w))]
      exact ih (fun c hc h => hw c (List.mem_cons_of_mem d hc) h)
        (fun c hc => hall c (List.mem_cons_of_mem d hc))
  rw [matchTail]
  simp only [hdrop]
  rw [if_neg (ruleR_not_rule1 hr),
    digitsToEnd_none_of_mem (List.mem_cons_self r rest) (ruleR_not_digit hr)]
  rfl

/-- The rule-1 tail fails on a remainder whose characters include a
reverse-delimiter, when the remainder starts with a digit (the digit is
not a delimiter, and the all-digits check hits the reverse letter). -/
theorem matchTail_rule1_digit_head {d : Char} (hd : d.isDigit = true)
    {r : Char} (hr : r ∈ ruleRDelims) {rest : List Char} (hmem : r ∈ rest) :
    matchTail rule1Delims true (d :: rest) = none := by
  have hdrop : (d :: rest).dropWhile isJsSpace = d :: rest :=
    dropWhile_eq_self_of_head
      (by intro c hc; cases hc; exact not_space_of_digit hd)
  have hnotdelim : d ∉ rule1Delims := by
    intro hmem'
    have hc := not_digit_of_rule1Delim hmem'
    rw [hd] at hc
    cases hc
  rw [matchTail]
  simp only [hdrop]
  rw [if_neg hnotdelim,
    digitsToEnd_none_of_mem (List.mem_cons_of_mem d hmem) (ruleR_not_digit hr)]
  rfl

/-- The reverse-rule tail succeeds on
`spaces ++ r ++ spaces ++ digits`. -/
theorem matchTail_ruleR_canonical {r : Char} (hr : r ∈ ruleRDelims)
    (k1 k2 : Nat) {a : List Char} (hne : a ≠ [])
    (had : a.all Char.isDigit = true) :
    matchTail ruleRDelims false
        (List.replicate k1 ' ' ++ r :: (List.replicate k2 ' ' ++ a))
      = some a := by
  have hdrop1 : (List.replicate k1 ' ' ++ r :: (List.replicate k2 ' ' ++ a)).dropWhile
      isJsSpace = r :: (List.replicate k2 ' ' ++ a) := by
    rw [dropWhile_space_replicate isJsSpace (by decide)]
    exact dropWhile_eq_self_of_head
      (by intro c hc; cases hc; exact ruleR_not_space hr)
  have hdrop2 : (List.replicate k2 ' ' ++ a).dropWhile isJsSpace = a := by
    rw [dropWhile_space_replicate isJsSpace (by decide)]
    exact dropWhile_eq_self_of_head (by
      intro c hc
      cases a with
      | nil => cases hc
      | cons a0 a' =>
        rw [List.head?_cons, Option.some.injEq] at hc
        rw [← hc]
        exact not_space_of_digit (by
          rw [List.all_eq_true] at had
          simpa using had a0 (List.mem_cons_self a0 a')))
  rw [matchTail]
  simp only [hdrop1]
  rw [if_pos hr, hdrop2, digitsToEnd_some hne had]

/-- Shape of a successful number capture: the captured number string is
one or two digit characters. -/
theorem matchNumThen_shape {tl : List Char → Option (List Char)} :
    ∀ {s : List Char} {num : String} {a : List Char},
      matchNumThen tl s = some (num, a) →
      num.data.all Char.isDigit = true
        ∧ (num.data.length = 1 ∨ num.data.length = 2)
  | [], num, a, h => by simp [matchNumThen] at h
  | [c1], num, a, h => by
    simp only [matchNumThen] at h
    by_cases h1 : c1.isDigit
    · rw [if_pos h1] at h
      rcases Option.map_eq_some'.mp h with ⟨a', ha', heq⟩
      simp only [Prod.mk.injEq] at heq
      obtain ⟨hnum, -⟩ := heq
      subst hnum
      exact ⟨by simp [h1], Or.inl rfl⟩
    · rw [if_neg h1] at h
      cases h
  | c1 :: c2 :: rest2, num, a, h => by
    simp only [matchNumThen] at h
    by_cases h1 : c1.isDigit
    · rw [if_pos h1] at h
      by_cases h2 : c2.isDigit
      · rw [if_pos h2] at h
        cases htl : tl rest2 with
        | some a' =>
          rw [htl] at h
          simp only [Option.some.injEq, Prod.mk.injEq] at h
          obtain ⟨hnum, -⟩ := h
          subst hnum
          exact ⟨by simp [h1, h2], Or.inr rfl⟩
        | none =>
          rw [htl] at h
          rcases Option.map_eq_some'.mp h with ⟨a', ha', heq⟩
          simp only [Prod.mk.injEq] at heq
          obtain ⟨hnum, -⟩ := heq
          subst hnum
          exact ⟨by simp [h1], Or.inl rfl⟩
      · rw [if_neg h2] at h
        rcases Option.map_eq_some'.mp h with ⟨a', ha', heq⟩
        simp only [Prod.mk.injEq] at heq
        obtain ⟨hnum, -⟩ := heq
        subst hnum
        exact ⟨by simp [h1], Or.inl rfl⟩
    · rw [if_neg h1] at h
      cases h

/-! ## Segment-level parsing lemmas -/

theorem ite_space_replicate (k : Nat) :
    (if k = 0 then ([] : List Char) else [' '])
      = List.replicate (if k = 0 then 0 else 1) ' ' := by
  by_cases h : k = 0 <;> simp [h]

theorem collapseWs_canonical (num : List Char)
    (hnum : ∀ c ∈ num, isJsSpace c = false) {r : Char}
    (hrns : isJsSpace r = false) (k1 k2 : Nat) {a : List Char} (hane : a ≠ [])
    (hans : ∀ c ∈ a, isJsSpace c = false) :
    collapseWs (num ++ List.replicate k1 ' ' ++ r :: (List.replicate k2 ' ' ++ a))
      = num ++ List.replicate (if k1 = 0 then 0 else 1) ' '
        ++ r :: (List.replicate (if k2 = 0 then 0 else 1) ' ' ++ a) := by
  rcases List.exists_cons_of_ne_nil hane with ⟨a0, a', ha⟩
  subst ha
  rw [collapseWs, List.append_assoc, aux_false_append_nonspace num hnum,
    aux_false_replicate_cons k1 hrns, aux_false_replicate_cons k2
      (hans a0 (List.mem_cons_self a0 a'))]
  rw [aux_no_space (fun c hc => hans c (List.mem_cons_of_mem a0 hc)) false]
  rw [ite_space_replicate k1, ite_space_replicate k2, List.append_assoc]

theorem matchTail_rule1_digits {a : List Char} (hane : a ≠ [])
    (had : a.all Char.isDigit = true) :
    matchTail rule1Delims true a = some a := by
  rcases List.exists_cons_of_ne_nil hane with ⟨a0, a', ha⟩
  subst ha
  have ha0 : a0.isDigit = true := by
    rw [List.all_eq_true] at had
    simpa using had a0 (List.mem_cons_self a0 a')
  have hdrop : (a0 :: a').dropWhile isJsSpace = a0 :: a' :=
    dropWhile_eq_self_of_head
      (by intro c hc; cases hc; exact not_space_of_digit ha0)
  have hnotdelim : a0 ∉ rule1Delims := by
    intro hmem
    have hc := not_digit_of_rule1Delim hmem
    rw [ha0] at hc
    cases hc
  rw [matchTail]
  simp only [hdrop]
  rw [if_neg hnotdelim, digitsToEnd_some (by simp) had]
  rfl

theorem matchNumThen_rule1_digits {d1 d2 : Char} (h1 : d1.isDigit = true)
    (h2 : d2.isDigit = true) {a : List Char} (hane : a ≠ [])
    (had : a.all Char.isDigit = true) :
    matchNumThen (matchTail rule1Delims true) (d1 :: d2 :: a)
      = some (String.mk [d1, d2], a) := by
  rcases List.exists_cons_of_ne_nil hane with ⟨a0, a', ha⟩
  subst ha
  rw [matchNumThen, if_pos h1, if_pos h2,
    matchTail_rule1_digits (by simp) had]

theorem matchNumThen_ruleR_canonical (num : List Char)
    (hlen : num.length = 1 ∨ num.length = 2) (hnd : num.all Char.isDigit = true)
    {r : Char} (hr : r ∈ ruleRDelims) (k1 k2 : Nat) {a : List Char}
    (hane : a ≠ []) (had : a.all Char.isDigit = true) :
    matchNumThen (matchTail ruleRDelims false)
        (num ++ List.replicate k1 ' ' ++ r :: (List.replicate k2 ' ' ++ a))
      = some (String.mk num, a) := by
  have htail := matchTail_ruleR_canonical hr k1 k2 hane had
  rcases hlen with hlen | hlen
  · rcases num with _ | ⟨d1, _ | ⟨d2, t⟩⟩
    · cases hlen
    · have hd1 : d1.isDigit = true := by
        rw [List.all_eq_true] at hnd
        simpa using hnd d1 (List.mem_cons_self d1 [])
      simp only [List.cons_append, List.nil_append]
      cases k1 with
      | zero =>
        rw [List.replicate_zero, List.nil_append, matchNumThen, if_pos hd1,
          if_neg (by rw [ruleR_not_digit hr]; simp)]
        rw [show (r :: (List.replicate k2 ' ' ++ a))
            = List.replicate 0 ' ' ++ r :: (List.replicate k2 ' ' ++ a) from rfl,
          htail]
        rfl
      | succ k =>
        rw [List.replicate_succ, List.cons_append, matchNumThen, if_pos hd1,
          if_neg (by decide)]
        rw [show (' ' :: (List.replicate k ' ' ++ r :: (List.replicate k2 ' ' ++ a)))
            = List.replicate (k + 1) ' ' ++ r :: (List.replicate k2 ' ' ++ a) from by
          rw [List.replicate_succ, List.cons_append]]
        rw [matchTail_ruleR_canonical hr (k + 1) k2 hane had]
        rfl
    · exfalso
      simp [List.length_cons] at hlen
  · rcases num with _ | ⟨d1, _ | ⟨d2, _ | ⟨d3, t⟩⟩⟩
    · cases hlen
    · exfalso
      simp at hlen
    · have hd1 : d1.isDigit = true := by
        rw [List.all_eq_true] at hnd
        simpa using hnd d1 (by simp)
      have hd2 : d2.isDigit = true := by
        rw [List.all_eq_true] at hnd
        simpa using hnd d2 (by simp)
      simp only [List.cons_append, List.nil_append]
      rw [matchNumThen, if_pos hd1, if_pos hd2, htail]
    · exfalso
      simp [List.length_cons] at hlen

theorem matchNumThen_rule1_canonical_none (num : List Char)
    (hlen : num.length = 1 ∨ num.length = 2) (hnd : num.all Char.isDigit = true)
    {r : Char} (hr : r ∈ ruleRDelims) (k1 k2 : Nat) {a : List Char}
    (_hane : a ≠ []) (_had : a.all Char.isDigit = true) :
    matchNumThen (matchTail rule1Delims true)
        (num ++ List.replicate k1 ' ' ++ r :: (List.replicate k2 ' ' ++ a))
      = none := by
  have hw : ∀ k : Nat, ∀ c ∈ List.replicate k ' ', isJsSpace c = false → False := by
    intro k c hc hfalse
    rw [List.eq_of_mem_replicate hc] at hfalse
    cases hfalse
  have htail : ∀ k : Nat,
      matchTail rule1Delims true
        (List.replicate k ' ' ++ r :: (List.replicate k2 ' ' ++ a)) = none :=
    fun k => matchTail_rule1_at_ruleR hr (List.replicate k ' ') (hw k) _
  rcases hlen with hlen | hlen
  · rcases num with _ | ⟨d1, _ | ⟨d2, t⟩⟩
    · cases hlen
    · have hd1 : d1.isDigit = true := by
        rw [List.all_eq_true] at hnd
        simpa using hnd d1 (List.mem_cons_self d1 [])
      simp only [List.cons_append, List.nil_append]
      cases k1 with
      | zero =>
        rw [List.replicate_zero, List.nil_append, matchNumThen, if_pos hd1,
          if_neg (by rw [ruleR_not_digit hr]; simp)]
        rw [show (r :: (List.replicate k2 ' ' ++ a))
            = List.replicate 0 ' ' ++ r :: (List.replicate k2 ' ' ++ a) from rfl,
          htail 0]
        rfl
      | succ k =>
        rw [List.replicate_succ, List.cons_append, matchNumThen, if_pos hd1,
          if_neg (by decide)]
        rw [show (' ' :: (List.replicate k ' ' ++ r :: (List.replicate k2 ' ' ++ a)))
            = List.replicate (k + 1) ' ' ++ r :: (List.replicate k2 ' ' ++ a) from by
          rw [List.replicate_succ, List.cons_append]]
        rw [htail (k + 1)]
        rfl
    · exfalso
      simp [List.length_cons] at hlen
  · rcases num with _ | ⟨d1, _ | ⟨d2, _ | ⟨d3, t⟩⟩⟩
    · cases hlen
    · exfalso
      simp at hlen
    · have hd1 : d1.isDigit = true := by
        rw [List.all_eq_true] at hnd
        simpa using hnd d1 (by simp)
      have hd2 : d2.isDigit = true := by
        rw [List.all_eq_true] at hnd
        simpa using hnd d2 (by simp)
      have hmem : r ∈ List.replicate k1 ' ' ++ r :: (List.replicate k2 ' ' ++ a) :=
        List.mem_append_right _ (List.mem_cons_self r _)
      simp only [List.cons_append, List.nil_append]
      rw [matchNumThen, if_pos hd1, if_pos hd2, htail k1,
        matchTail_rule1_digit_head hd2 hr hmem]
      rfl
    · exfalso
      simp [List.length_cons] at hlen

theorem string_length_data (s : String) : s.length = s.data.length := rfl

theorem string_data_append (s t : String) : (s ++ t).data = s.data ++ t.data := by
  cases s
  cases t
  rfl

theorem pad2_shape {s : String} (hd : s.data.all Char.isDigit = true)
    (hl : s.data.length = 1 ∨ s.data.length = 2) :
    (pad2 s).data.length = 2 ∧ (pad2 s).data.all Char.isDigit = true := by
  rcases hl with hl | hl
  · rw [pad2, if_pos (by rw [string_length_data, hl])]
    rw [string_data_append]
    constructor
    · simp [hl]
    · simp only [List.all_append, hd, Bool.and_true]
      decide
  · rw [pad2, if_neg (by rw [string_length_data, hl]; omega)]
    exact ⟨hl, hd⟩

theorem pad2_eq_self {s : String} (h : s.data.length = 2) : pad2 s = s := by
  rw [pad2, if_neg (by rw [string_length_data, h]; omega)]

theorem reverse2_shape {s : String} (h2 : s.data.length = 2)
    (hd : s.data.all Char.isDigit = true) :
    (reverse2 s).data.length = 2
      ∧ (reverse2 s).data.all Char.isDigit = true := by
  have hnot : ¬(s.length < 2) := by
    rw [string_length_data, h2]
    omega
  simp only [reverse2, if_neg hnot]
  constructor
  · simp [h2]
  · simp [hd]

theorem parseSegmentChars_reverse (num : List Char)
    (hlen : num.length = 1 ∨ num.length = 2) (hnd : num.all Char.isDigit = true)
    {r : Char} (hr : r ∈ ruleRDelims) (k1 k2 : Nat) {a : List Char}
    (hane : a ≠ []) (had : a.all Char.isDigit = true) :
    parseSegmentChars
        (num ++ List.replicate k1 ' ' ++ r :: (List.replicate k2 ' ' ++ a))
      = [⟨pad2 (String.mk num), digitsToNat a⟩,
         ⟨reverse2 (pad2 (String.mk num)), digitsToNat a⟩] := by
  have hcoll := collapseWs_canonical num (all_digits_no_space hnd)
    (ruleR_not_space hr) k1 k2 hane (all_digits_no_space had)
  have h1 := matchNumThen_rule1_canonical_none num hlen hnd hr
    (if k1 = 0 then 0 else 1) (if k2 = 0 then 0 else 1) hane had
  have h2 := matchNumThen_ruleR_canonical num hlen hnd hr
    (if k1 = 0 then 0 else 1) (if k2 = 0 then 0 else 1) hane had
  simp only [parseSegmentChars]
  rw [hcoll, h1, h2]

theorem parseSegmentChars_concat {d1 d2 : Char} (h1 : d1.isDigit = true)
    (h2 : d2.isDigit = true) {a : List Char} (hane : a ≠ [])
    (had : a.all Char.isDigit = true) :
    parseSegmentChars (d1 :: d2 :: a)
      = [⟨String.mk [d1, d2], digitsToNat a⟩] := by
  have hns : ∀ c ∈ d1 :: d2 :: a, isJsSpace c = false := by
    intro c hc
    rcases List.mem_cons.mp hc with rfl | hc
    · exact not_space_of_digit h1
    · rcases List.mem_cons.mp hc with rfl | hc
      · exact not_space_of_digit h2
      · exact all_digits_no_space had c hc
  have hcoll : collapseWs (d1 :: d2 :: a) = d1 :: d2 :: a := aux_no_space hns false
  have hm := matchNumThen_rule1_digits h1 h2 hane had
  simp only [parseSegmentChars]
  rw [hcoll, hm]
  show [Bet.mk (pad2 (String.mk [d1, d2])) (digitsToNat a)] = _
  rw [pad2_eq_self (show (String.mk [d1, d2]).data.length = 2 from rfl)]

theorem ruleR_not_sep {c : Char} (h : c ∈ ruleRDelims) : isSegSep c = false := by
  fin_cases h <;> decide

theorem trimChars_canonical (num : List Char) (hnum : num ≠ [])
    (hnd : num.all Char.isDigit = true) (r : Char) (k1 k2 : Nat)
    {a : List Char} (hane : a ≠ []) (had : a.all Char.isDigit = true) :
    trimChars (num ++ List.replicate k1 ' ' ++ r :: (List.replicate k2 ' ' ++ a))
      = num ++ List.replicate k1 ' ' ++ r :: (List.replicate k2 ' ' ++ a) := by
  apply trimChars_eq_self
  · intro c hc
    rcases List.exists_cons_of_ne_nil hnum with ⟨n0, num', rfl⟩
    simp only [List.cons_append, List.head?_cons, Option.some.injEq] at hc
    rw [← hc]
    refine not_space_of_digit ?_
    rw [List.all_eq_true] at hnd
    simpa using hnd n0 (List.mem_cons_self n0 num')
  · intro c hc
    rcases List.eq_nil_or_concat a with rfl | ⟨a'', alast, rfl⟩
    · exact absurd rfl hane
    · simp only [List.concat_eq_append] at hc had
      have hre : num ++ List.replicate k1 ' '
          ++ r :: (List.replicate k2 ' ' ++ (a'' ++ [alast]))
          = (num ++ List.replicate k1 ' '
              ++ r :: (List.replicate k2 ' ' ++ a'')) ++ [alast] := by
        simp [List.append_assoc]
      rw [hre, List.getLast?_concat, Option.some.injEq] at hc
      rw [← hc]
      refine not_space_of_digit ?_
      rw [List.all_eq_true] at had
      simpa using had alast (List.mem_append_right a'' (List.mem_singleton.mpr rfl))

/-! ## Message-level parsing lemmas -/

theorem parseMessageToBets_eq_core (text : String) :
    parseMessageToBets text = parseCore text.data := by
  rw [parseMessageToBets]
  by_cases h : text = ""
  · rw [if_pos h, h]
    rfl
  · rw [if_neg h]

theorem parseCore_append (x y : List Char) {c : Char} (hc : isSegSep c = true) :
    parseCore (x ++ c :: y) = parseCore x ++ parseCore y := by
  rw [parseCore, parseCore, parseCore, splitChars_append_sep isSegSep hc,
    List.map_append, List.filter_append, List.map_append, List.flatten_append]

theorem parseCore_single {l : List Char} (hsep : ∀ c ∈ l, isSegSep c = false)
    (htrim : trimChars l = l) (hne : l ≠ []) :
    parseCore l = parseSegmentChars l := by
  rw [parseCore, splitChars_eq_single hsep]
  simp [htrim, hne]

theorem parseCore_nil_of_all_unmatched {l : List Char}
    (h : ∀ part ∈ (splitChars isSegSep l).map trimChars,
      parseSegmentChars part = []) :
    parseCore l = [] := by
  rw [parseCore]
  apply List.flatten_eq_nil_iff.mpr
  intro bets hb
  rcases List.mem_map.mp hb with ⟨part, hpart, hpe⟩
  rw [← hpe]
  exact h part (List.mem_of_mem_filter hpart)

theorem parseSegmentChars_number_shape {part : List Char} {b : Bet}
    (hb : b ∈ parseSegmentChars part) :
    b.number.data.length = 2 ∧ b.number.data.all Char.isDigit = true := by
  revert hb
  simp only [parseSegmentChars]
  cases hm1 : matchNumThen (matchTail rule1Delims true) (collapseWs part) with
  | some p =>
    rcases p with ⟨num, a⟩
    intro hb
    rcases matchNumThen_shape hm1 with ⟨hd, hl⟩
    simp only [List.mem_singleton] at hb
    subst hb
    exact pad2_shape hd hl
  | none =>
    cases hm2 : matchNumThen (matchTail ruleRDelims false) (collapseWs part) with
    | some p =>
      rcases p with ⟨num, a⟩
      intro hb
      rcases matchNumThen_shape hm2 with ⟨hd, hl⟩
      rcases List.mem_cons.mp hb with hb | hb
      · subst hb
        exact pad2_shape hd hl
      · simp only [List.mem_singleton] at hb
        subst hb
        rcases pad2_shape hd hl with ⟨hp2, hpd⟩
        exact reverse2_shape hp2 hpd
    | none =>
      cases hm3 : matchNumThen (matchTail ruleEqDelims false) (collapseWs part) with
      | some p =>
        rcases p with ⟨num, a⟩
        intro hb
        rcases matchNumThen_shape hm3 with ⟨hd, hl⟩
        simp only [List.mem_singleton] at hb
        subst hb
        exact pad2_shape hd hl
      | none =>
        cases hm4 : matchNumThen matchSpaceTail (collapseWs part) with
        | some p =>
          rcases p with ⟨num, a⟩
          intro hb
          rcases matchNumThen_shape hm4 with ⟨hd, hl⟩
          simp only [List.mem_singleton] at hb
          subst hb
          exact pad2_shape hd hl
        | none =>
          intro hb
          cases hb

/-! ## Mode-selection and substitution lemmas -/

theorem summarize_cons_false (r0 : AggRecord) (rest : List AggRecord) :
    summarize (r0 :: rest) false = .totalReport (totalLines (r0 :: rest)) := rfl

theorem summarize_cons_true (r0 : AggRecord) (rest : List AggRecord) :
    summarize (r0 :: rest) true = .perUserReport (perUserLines (r0 :: rest)) := rfl

theorem summarize_ne_noData :
    ∀ {rows : List AggRecord}, rows ≠ [] → ∀ b : Bool,
      summarize rows b ≠ SummaryResult.noData
  | [], h, _ => absurd rfl h
  | _ :: _, _, b => by cases b <;> simp [summarize]

theorem perUserStep_congr (m : JsObj (JsObj (Option Int))) (r r' : AggRecord)
    (hn : r.number = r'.number) (hs : r.sender = r'.sender)
    (ha : jsOr r.amount (JVal.jnum 0) = jsOr r'.amount (JVal.jnum 0)) :
    perUserStep m r = perUserStep m r' := by
  simp only [perUserStep, hn, hs, ha]

theorem perUserStep_falsy (m : JsObj (JsObj (Option Int))) (r : AggRecord)
    (h : jsTruthy r.amount = false) :
    perUserStep m r = perUserStep m { r with amount := JVal.jnum 0 } := by
  refine perUserStep_congr m r { r with amount := JVal.jnum 0 } rfl rfl ?_
  calc jsOr r.amount (JVal.jnum 0)
      = JVal.jnum 0 := by rw [jsOr, if_neg (by rw [h]; simp)]
    _ = jsOr ({ r with amount := JVal.jnum 0 } : AggRecord).amount (JVal.jnum 0) :=
        rfl

theorem totalAgg_subst_zero (rows1 rows2 : List AggRecord) (r : AggRecord)
    (h : toNumber r.amount = none) :
    totalAgg (rows1 ++ r :: rows2)
      = totalAgg (rows1 ++ { r with amount := JVal.jnum 0 } :: rows2) := by
  rcases r with ⟨num, snd, amt⟩
  simp only at h
  simp only [toNumber] at h
  simp [totalAgg, List.foldl_append, toNumber, h]

theorem perUserAgg_subst_zero (rows1 rows2 : List AggRecord) (r : AggRecord)
    (h : jsTruthy r.amount = false) :
    perUserAgg (rows1 ++ r :: rows2)
      = perUserAgg (rows1 ++ { r with amount := JVal.jnum 0 } :: rows2) := by
  simp only [perUserAgg, List.foldl_append, List.foldl_cons]
  rw [perUserStep_falsy _ _ h]

/-! ## Claim theorems -/

/-- C1: in total mode (`perUser = false`), `summarize` groups the
records by `number`, sums the coerced amounts per group, and emits
exactly one line per distinct number — the map over the deduplicated
number list — in strictly ascending lexicographic order of the number
string, each line formatted `"<number> - <summed amount>"`, for every
non-empty record list. -/
theorem claim_c1_total_mode (rows : List AggRecord) (hne : rows ≠ []) :
    summarize rows false
      = SummaryResult.totalReport ((sortedNumbers rows).map
          (fun n => n ++ " - " ++ toString (specTotalSum rows n)))
    ∧ List.Pairwise strLt (sortedNumbers rows) := by
  rcases rows with _ | ⟨r0, rest⟩
  · exact absurd rfl hne
  · exact ⟨(summarize_cons_false r0 rest).trans
      (congrArg SummaryResult.totalReport (totalLines_eq (r0 :: rest))),
      sortedNumbers_strict (r0 :: rest)⟩

theorem claim_c1_total_mode_witness :
    summarize [⟨"22", "a", JVal.jnum 5⟩, ⟨"10", "b", JVal.jnum 3⟩,
        ⟨"22", "c", JVal.jnum 2⟩] false
      = SummaryResult.totalReport ["10 - 3", "22 - 7"] :=
  (claim_c1_total_mode _ (by decide)).1.trans (by decide)

/-- C2 counterexample: a stored record whose amount is the non-numeric
string `"x"` (which fails to coerce: `Number("x")` is `NaN`) does not
contribute zero in per-sender mode — the running sum for the
`(number, sender)` pair becomes `NaN` and the line prints `NaN`. -/
theorem claim_c2_counterexample :
    toNumber (JVal.jstr "x") = none
    ∧ perUserSum [⟨"22", "a", JVal.jstr "x"⟩] "22" "a" = some none
    ∧ ¬ perUserSum [⟨"22", "a", JVal.jstr "x"⟩] "22" "a" = some (some 0)
    ∧ perUserLines [⟨"22", "a", JVal.jstr "x"⟩] = ["22 -> a: NaN"] := by
  decide

/-- C2 (amended): a record whose amount fails to coerce to a number
contributes exactly zero in total mode; in per-sender mode this holds
when the amount is also falsy (`undefined`), while a truthy
non-coercible amount turns the pair's running sum into `NaN` instead
(see the counterexample); in both modes aggregation still produces a
report rather than aborting. -/
theorem claim_c2_amended :
    (∀ (rows1 rows2 : List AggRecord) (r : AggRecord),
      toNumber r.amount = none →
      totalAgg (rows1 ++ r :: rows2)
        = totalAgg (rows1 ++ { r with amount := JVal.jnum 0 } :: rows2))
    ∧ (∀ (rows1 rows2 : List AggRecord) (r : AggRecord),
      toNumber r.amount = none → jsTruthy r.amount = false →
      perUserAgg (rows1 ++ r :: rows2)
        = perUserAgg (rows1 ++ { r with amount := JVal.jnum 0 } :: rows2))
    ∧ (∀ (rows : List AggRecord) (b : Bool), rows ≠ [] →
      summarize rows b ≠ SummaryResult.noData) :=
  ⟨fun rows1 rows2 r h => totalAgg_subst_zero rows1 rows2 r h,
   fun rows1 rows2 r _ h2 => perUserAgg_subst_zero rows1 rows2 r h2,
   fun _ b h => summarize_ne_noData h b⟩

theorem claim_c2_amended_witness :
    totalAgg [⟨"22", "a", JVal.jstr "x"⟩] = totalAgg [⟨"22", "a", JVal.jnum 0⟩]
    ∧ perUserAgg [⟨"22", "a", JVal.jundef⟩] = perUserAgg [⟨"22", "a", JVal.jnum 0⟩]
    ∧ summarize [⟨"22", "a", JVal.jnum 1⟩] true ≠ SummaryResult.noData :=
  ⟨claim_c2_amended.1 [] [] ⟨"22", "a", JVal.jstr "x"⟩ (by decide),
   claim_c2_amended.2.1 [] [] ⟨"22", "a", JVal.jundef⟩ (by decide) (by decide),
   claim_c2_amended.2.2 [⟨"22", "a", JVal.jnum 1⟩] true (by decide)⟩

/-- C3 counterexample: for the single record `{number: "22", sender:
"a", amount: "x"}`, the total-mode sum for "22" is `0` (the `|| 0`
guard), but the per-sender value is `NaN`, so the sum over senders is
`NaN` and differs from the total-mode sum. -/
theorem claim_c3_counterexample :
    (perUserAgg [⟨"22", "a", JVal.jstr "x"⟩]).get "22"
      = some (JsObj.mk [("a", (none : Option Int))])
    ∧ (totalAgg [⟨"22", "a", JVal.jstr "x"⟩]).get "22" = some 0
    ∧ ¬ jsSumVals ((JsObj.mk [("a", (none : Option Int))]).entries.map
        (fun p => p.2))
      = (totalAgg [⟨"22", "a", JVal.jstr "x"⟩]).get "22" := by
  decide

/-- C3 (amended): when every record's amount coerces to a number, the
total-mode sum for a number equals the sum over senders of the
per-sender-mode sums for that number; with a non-coercible amount the
per-sender side is `NaN` (see the counterexample). -/
theorem claim_c3_amended (rows : List AggRecord) (n : String)
    (inner : JsObj (Option Int))
    (hcoerce : ∀ r ∈ rows, (toNumber r.amount).isSome = true)
    (hget : (perUserAgg rows).get n = some inner) :
    jsSumVals (inner.entries.map (fun p => p.2)) = (totalAgg rows).get n := by
  rw [perUserAgg_get] at hget
  by_cases hmem : n ∈ numbersOf rows
  · rw [if_pos hmem, Option.some.injEq] at hget
    subst hget
    rw [totalAgg_get, if_pos hmem]
    show jsSumVals ((specInner rows n).map (fun p => p.2)) = _
    rw [specInner_eq_tabulate, tabulate_values]
    rw [List.map_congr_left (fun s _ => specPerVal_eq_sum hcoerce)]
    rw [jsSumVals_eq (by
      intro v hv
      rcases List.mem_map.mp hv with ⟨s, -, hvs⟩
      rw [← hvs]
      rfl)]
    congr 1
    have hff : ∀ s, rows.filter (fun r => r.number = n ∧ r.sender = s)
        = (rows.filter (fun r => r.number = n)).filter
            (fun r => r.sender = s) := by
      intro s
      rw [List.filter_filter]
      apply List.filter_congr
      intro r _
      by_cases h1 : r.number = n <;> by_cases h2 : r.sender = s <;>
        simp [h1, h2]
    have hmap : ((dedupFirst (sendersFor rows n)).map (fun s =>
        some (((rows.filter (fun r => r.number = n ∧ r.sender = s)).map
          (fun r => (toNumber r.amount).getD 0)).sum))).map
          (fun v : Option Int => v.getD 0)
        = (dedupFirst (sendersFor rows n)).map (fun s =>
            (((rows.filter (fun r => r.number = n)).filter
              (fun r => r.sender = s)).map
              (fun r => (toNumber r.amount).getD 0)).sum) := by
      rw [List.map_map]
      apply List.map_congr_left
      intro s _
      simp only [Function.comp_apply, Option.getD_some]
      rw [hff s]
    rw [hmap]
    exact sum_grouped (fun r => r.sender) (fun r => (toNumber r.amount).getD 0)
      (rows.filter (fun r => r.number = n))
  · rw [if_neg hmem] at hget
    cases hget

theorem claim_c3_amended_witness :
    jsSumVals ((JsObj.mk [("a", (some 5 : Option Int))]).entries.map
        (fun p => p.2))
      = (totalAgg [⟨"22", "a", JVal.jnum 5⟩]).get "22" :=
  claim_c3_amended [⟨"22", "a", JVal.jnum 5⟩] "22" (JsObj.mk [("a", some 5)])
    (by decide) (by decide)

/-- C4 counterexample: with records `("22","b",1)` then `("22","7",2)`,
the first-appearance sender order for "22" is `b` before `7`, but the
emitted line lists `7` first, because `"7"` is a canonical array-index
property key and `Object.entries` enumerates integer-like keys before
insertion-ordered string keys. -/
theorem claim_c4_counterexample :
    dedupFirst (sendersFor [⟨"22", "b", JVal.jnum 1⟩, ⟨"22", "7", JVal.jnum 2⟩]
        "22") = ["b", "7"]
    ∧ summarize [⟨"22", "b", JVal.jnum 1⟩, ⟨"22", "7", JVal.jnum 2⟩] true
      = SummaryResult.perUserReport ["22 -> 7: 2; b: 1"]
    ∧ ["22 -> 7: 2; b: 1"] ≠ ["22 -> b: 1; 7: 2"] := by
  decide

/-- C4 (amended): in per-sender mode, provided no sender string is a
canonical array-index key (the ECMAScript own-property enumeration
exception), the senders within each number's line appear in
first-appearance order among that number's records, each line formatted
`"<number> -> <sender1>: <sum1>; <sender2>: <sum2>; ..."`; a sender
whose name is a canonical integer string is instead hoisted before the
others (see the counterexample). -/
theorem claim_c4_amended (rows : List AggRecord) (hne : rows ≠ [])
    (hs : ∀ r ∈ rows, isArrayIndexKey r.sender = false) :
    summarize rows true
      = SummaryResult.perUserReport ((sortedNumbers rows).map
          (fun n => n ++ " -> " ++ joinSep "; "
            ((dedupFirst (sendersFor rows n)).map
              (fun s => s ++ ": " ++ fmtNum (specPerVal rows n s))))) := by
  rcases rows with _ | ⟨r0, rest⟩
  · exact absurd rfl hne
  · rw [summarize_cons_true, perUserLines_eq (r0 :: rest) hs]
    congr 1
    apply List.map_congr_left
    intro n hn
    simp only [specInner_eq_tabulate, tabulate, List.map_map, Function.comp_def]

theorem claim_c4_amended_witness :
    summarize [⟨"22", "b", JVal.jnum 1⟩, ⟨"22", "a", JVal.jnum 2⟩,
        ⟨"22", "b", JVal.jnum 4⟩] true
      = SummaryResult.perUserReport ["22 -> b: 5; a: 2"] :=
  (claim_c4_amended _ (by decide) (by decide)).trans (by decide)

/-- C5: a reverse-bet segment — a 1–2 digit number, the letter `r` or
`R` optionally surrounded by spaces, then a digit sequence — embedded
anywhere in a message contributes exactly two Bet entries,
consecutively and original number first: the zero-padded number and its
digit reversal on the zero-padded form, both with the same amount.  A
palindromic number yields two identical entries, with no
deduplication. -/
theorem claim_c5_reverse_segment (pre post : String) (num : List Char)
    (hlen : num.length = 1 ∨ num.length = 2) (hnd : num.all Char.isDigit = true)
    {r : Char} (hr : r ∈ ruleRDelims) (k1 k2 : Nat) {a : List Char}
    (hane : a ≠ []) (had : a.all Char.isDigit = true) :
    parseMessageToBets
        (pre ++ "\n"
          ++ String.mk (num ++ List.replicate k1 ' '
              ++ r :: (List.replicate k2 ' ' ++ a))
          ++ "\n" ++ post)
      = parseMessageToBets pre
        ++ [⟨pad2 (String.mk num), digitsToNat a⟩,
            ⟨reverse2 (pad2 (String.mk num)), digitsToNat a⟩]
        ++ parseMessageToBets post := by
  have hnumne : num ≠ [] := by
    intro hnil
    rcases hlen with hlen | hlen <;> (rw [hnil] at hlen; cases hlen)
  have hdata : (pre ++ "\n"
        ++ String.mk (num ++ List.replicate k1 ' '
            ++ r :: (List.replicate k2 ' ' ++ a))
        ++ "\n" ++ post).data
      = pre.data ++ '\n'
          :: ((num ++ List.replicate k1 ' '
              ++ r :: (List.replicate k2 ' ' ++ a))
            ++ '\n' :: post.data) := by
    simp only [string_data_append, List.append_assoc]
    rfl
  rw [parseMessageToBets_eq_core, parseMessageToBets_eq_core,
    parseMessageToBets_eq_core, hdata,
    parseCore_append pre.data _ (by decide)]
  have hsep : ∀ c ∈ num ++ List.replicate k1 ' '
      ++ r :: (List.replicate k2 ' ' ++ a), isSegSep c = false := by
    intro c hc
    rcases List.mem_append.mp hc with hc | hc
    · rcases List.mem_append.mp hc with hc | hc
      · refine not_sep_of_digit ?_
        rw [List.all_eq_true] at hnd
        simpa using hnd c hc
      · rw [List.eq_of_mem_replicate hc]
        decide
    · rcases List.mem_cons.mp hc with rfl | hc
      · exact ruleR_not_sep hr
      · rcases List.mem_append.mp hc with hc | hc
        · rw [List.eq_of_mem_replicate hc]
          decide
        · refine not_sep_of_digit ?_
          rw [List.all_eq_true] at had
          simpa using had c hc
  rw [parseCore_append _ post.data (by decide)]
  rw [parseCore_single hsep (trimChars_canonical num hnumne hnd r k1 k2 hane had)
    (by
      rcases List.exists_cons_of_ne_nil hnumne with ⟨n0, num', rfl⟩
      simp)]
  rw [parseSegmentChars_reverse num hlen hnd hr k1 k2 hane had,
    List.append_assoc]

theorem claim_c5_reverse_segment_witness :
    parseMessageToBets
        ("x" ++ "\n"
          ++ String.mk (['1', '5'] ++ List.replicate 0 ' '
              ++ 'r' :: (List.replicate 0 ' ' ++ ['5', '0', '0']))
          ++ "\n" ++ "")
      = [⟨"15", 500⟩, ⟨"51", 500⟩] :=
  (claim_c5_reverse_segment "x" "" ['1', '5'] (by decide) (by decide)
    (by decide) 0 0 (by decide) (by decide)).trans (by decide)

/-- C6: `summarize` on an empty record set yields the distinguished
"no data" result in both modes, and that result is a different value
from a report with zero lines (or any report at all), never an
empty-but-present report. -/
theorem claim_c6_no_data :
    (∀ b : Bool, summarize [] b = SummaryResult.noData)
    ∧ ∀ lines : List String,
        SummaryResult.noData ≠ SummaryResult.totalReport lines
        ∧ SummaryResult.noData ≠ SummaryResult.perUserReport lines := by
  constructor
  · intro b
    cases b <;> rfl
  · intro lines
    exact ⟨fun h => SummaryResult.noConfusion h,
      fun h => SummaryResult.noConfusion h⟩

/-- C7: a pure concatenation segment — two digits immediately followed
by a non-empty digit sequence, no delimiter — is accepted by the first
grammar rule (the optional-delimiter regex), with the leading two
digits as the number and the remaining digits as the amount. -/
theorem claim_c7_concatenation {d1 d2 : Char} (h1 : d1.isDigit = true)
    (h2 : d2.isDigit = true) {a : List Char} (hane : a ≠ [])
    (had : a.all Char.isDigit = true) :
    matchNumThen (matchTail rule1Delims true) (d1 :: d2 :: a)
      = some (String.mk [d1, d2], a)
    ∧ parseSegmentChars (d1 :: d2 :: a)
      = [⟨String.mk [d1, d2], digitsToNat a⟩] :=
  ⟨matchNumThen_rule1_digits h1 h2 hane had,
   parseSegmentChars_concat h1 h2 hane had⟩

theorem claim_c7_concatenation_witness :
    matchNumThen (matchTail rule1Delims true) ['2', '2', '5', '0', '0']
      = some ("22", ['5', '0', '0'])
    ∧ parseSegmentChars ['2', '2', '5', '0', '0'] = [⟨"22", 500⟩] :=
  claim_c7_concatenation (by decide) (by decide) (by decide) (by decide)

/-- C8: parse is total — in this embedding every input string produces
a well-defined list — the empty string and a fully unrecognized string
yield the empty list, and whenever every trimmed segment of a message
matches no grammar rule the whole message parses to the empty list
(unrecognized segments are silently discarded). -/
theorem claim_c8_total_silent :
    parseMessageToBets "" = []
    ∧ parseMessageToBets "hello" = []
    ∧ ∀ text : String,
        (∀ part ∈ (splitChars isSegSep text.data).map trimChars,
          parseSegmentChars part = []) →
        parseMessageToBets text = [] := by
  refine ⟨by decide, by decide, ?_⟩
  intro text h
  rw [parseMessageToBets_eq_core]
  exact parseCore_nil_of_all_unmatched h

theorem claim_c8_total_silent_witness :
    parseMessageToBets "foo, ba r2x" = [] :=
  claim_c8_total_silent.2.2 "foo, ba r2x" (by decide)

/-- C9: every Bet produced by parse has a `number` of exactly two
decimal digit characters (range "00"–"99"); `pad2` left-pads a
one-character numeral with a zero and keeps a two-character numeral
unchanged. -/
theorem claim_c9_number_invariant :
    (∀ (text : String) (b : Bet), b ∈ parseMessageToBets text →
      b.number.data.length = 2 ∧ b.number.data.all Char.isDigit = true)
    ∧ (∀ s : String, s.data.length = 1 → pad2 s = "0" ++ s)
    ∧ (∀ s : String, s.data.length = 2 → pad2 s = s) := by
  refine ⟨?_, ?_, fun s h => pad2_eq_self h⟩
  · intro text b hb
    rw [parseMessageToBets_eq_core, parseCore] at hb
    rcases List.mem_flatten.mp hb with ⟨bets, hbets, hbmem⟩
    rcases List.mem_map.mp hbets with ⟨part, hpart, hpe⟩
    rw [← hpe] at hbmem
    exact parseSegmentChars_number_shape hbmem
  · intro s h
    rw [pad2, if_pos (by rw [string_length_data, h])]

theorem claim_c9_number_invariant_witness :
    ((⟨"05", 500⟩ : Bet) ∈ parseMessageToBets "5-500")
    ∧ ("05" : String).data.length = 2
    ∧ ("05" : String).data.all Char.isDigit = true
    ∧ pad2 "5" = "05" :=
  ⟨by decide,
   (claim_c9_number_invariant.1 "5-500" ⟨"05", 500⟩ (by decide)).1,
   (claim_c9_number_invariant.1 "5-500" ⟨"05", 500⟩ (by decide)).2,
   (claim_c9_number_invariant.2.1 "5" (by decide)).trans (by decide)⟩

/-- C10 counterexample: at the largest representable timestamp
`8.64e15` ms (a valid `Date`), adding the offset pushes the time value
out of the representable range, the shifted `Date` is invalid,
`getUTCHours()` is `NaN`, and the filter returns `false` — although the
arithmetic local hour-of-day is 6, which is before noon. -/
theorem claim_c10_counterexample :
    isBeforeNoonLocal 8640000000000000 = false
    ∧ ((8640000000000000 + 23400000 : Int).fdiv 3600000) % 24 = 6
    ∧ (8640000000000000 : Int).natAbs ≤ maxTimeMillis := by
  decide

/-- C10 (amended): the offset expression `6.5 * 60 * 60 * 1000`
evaluates exactly (no drift) to 23,400,000 ms, and for every UTC
timestamp whose shifted value stays inside the representable `Date`
range, the filter returns true iff the local hour-of-day — the
non-negative floor-division hour of `t + 23400000` — is strictly less
than 12; at the range boundary the shifted date is invalid and the
filter returns false (see the counterexample). -/
theorem claim_c10_amended :
    yangonOffsetMillis = (yangonOffsetInt : ℚ)
    ∧ ∀ t : Int, (t + 23400000).natAbs ≤ maxTimeMillis →
        (isBeforeNoonLocal t = true
          ↔ ((t + 23400000).fdiv 3600000) % 24 < 12) := by
  constructor
  · rw [yangonOffsetMillis, yangonOffsetInt]
    norm_num
  · intro t ht
    rw [isBeforeNoonLocal]
    simp only [yangonOffsetInt]
    rw [if_pos ht]
    exact decide_eq_true_iff

theorem claim_c10_amended_witness : isBeforeNoonLocal 0 = true :=
  (claim_c10_amended.2 0 (by decide)).mpr (by decide)

end NextBet


